import Mathlib

set_option linter.unusedSectionVars false
set_option linter.unusedVariables false

/-!
Verification development for the vectorized block hash aggregation stage
(`BlockHashAggStage` in `src/mongo/db/exec/sbe/stages/block_hashagg.cpp`).

The embedding is a shallow one:
* columnar blocks are Lean `List`s of tagged values, abstracted over a value type `V`;
* accumulator states are abstracted over a state type `A`; the compiled accumulator
  expressions (block level, row level, merging) are opaque functions carried in `AggSpec`;
* the group table is an association list from materialized keys to accumulator state rows,
  mutated exactly the way the C++ code mutates its `unordered_map`;
* fallible code (`tassert` / `invariant`) returns `Except Err`.

Functions are translated from the source file; the handful of collaborators that live
outside the excerpted sources (`ValueBlock::tokenize`, the spill record store of
`HashAggBaseStage`) are modelled from the specification and are marked as such in their
doc comments.
-/

namespace BlockHashAgg

/-- Fatal assertion outcomes: `tassert n` models `tassert(n, ...)` firing with error
code `n`, and `invariantFailure` models a failed `invariant(...)`. -/
inductive Err where
  | tassert : Nat → Err
  | invariantFailure : Err
  deriving DecidableEq, Repr

/-- A materialized group-by key (`value::MaterializedRow` holding one tagged value per
group-by column). -/
abbrev Key (V : Type) := List V

/-- One input batch as seen by `BlockHashAggStage::open`: the selection bitmap block,
the group-by columns and the accumulator input columns, each materialized as a list of
per-row values. -/
structure InputBlock (V : Type) where
  mask : List Bool
  gbs : List (List V)
  datas : List (List V)
  deriving DecidableEq, Repr

/-- One accumulator: the compiled block-level expression, the compiled row-level
expression, the compiled merging expression, and the empty accumulator slot value
(`value::TypeTags::Nothing`) that freshly created hash-table entries start from.
The expressions are opaque callables, mirroring the bytecode contract. -/
structure AggSpec (V A : Type) where
  nothingVal : A
  rowAgg : List V → A → A
  blockAgg : List Bool → List (List V) → A → A
  merge : A → A → A

variable {V A : Type} [DecidableEq V] [Inhabited V]

/-- The freshly initialized accumulator state row: one empty slot per accumulator
(`it->second.resize(_rowAggAccessors.size())`). -/
def nothingRow (aggs : List (AggSpec V A)) : List A :=
  aggs.map (fun g => g.nothingVal)

/-- Running every row-level accumulator once against data row `r`
(the loop over `_aggCodes` in `executeRowLevelAccumulatorCode`). -/
def rowStepRow (aggs : List (AggSpec V A)) (r : List V) (sts : List A) : List A :=
  List.zipWith (fun g s => g.rowAgg r s) aggs sts

/-- Folding the row-level accumulators over a list of data rows. -/
def foldRows (aggs : List (AggSpec V A)) (sts : List A) (rows : List (List V)) : List A :=
  rows.foldl (fun s r => rowStepRow aggs r s) sts

/-- Running every block-level accumulator once against the bound selection bitmap and
the bound data blocks (the loop over `_blockLevelAggCodes` in
`executeBlockLevelAccumulatorCode`). -/
def blockStepRow (aggs : List (AggSpec V A)) (bits : List Bool) (datas : List (List V))
    (sts : List A) : List A :=
  List.zipWith (fun g s => g.blockAgg bits datas s) aggs sts

/-- Running every merging expression once, combining the previously accumulated state
row with a newly recovered spilled state row (the `processRow` lambda in
`getNextSpilledHelper`). -/
def mergeStep (aggs : List (AggSpec V A)) (acc part : List A) : List A :=
  List.zipWith (fun g pq => g.merge pq.1 pq.2) aggs (acc.zip part)

/-- The in-memory group table `_ht`: a finite map from materialized keys to accumulator
state rows, embedded as an association list. -/
abbrev GroupTable (V A : Type) := List (Key V × List A)

/-- Key lookup in the group table (`_ht->find(key)`). -/
def lookupTable (k : Key V) : GroupTable V A → Option (List A)
  | [] => none
  | e :: t => if e.1 = k then some e.2 else lookupTable k t

/-- The keys currently present in the group table. -/
def tableKeys (ht : GroupTable V A) : List (Key V) :=
  ht.map (fun e => e.1)

/-- The common find-or-create-then-update pattern of both execution strategies:
look up `k`; on a miss, emplace a deep copy of `k` with a fresh all-empty state row;
then rewrite the entry's state row with `f`. -/
def htApply (k : Key V) (f : List A → List A) (fresh : List A) (ht : GroupTable V A) :
    GroupTable V A :=
  match lookupTable k ht with
  | some _ => ht.map (fun e => if e.1 = k then (e.1, f e.2) else e)
  | none => ht ++ [(k, f fresh)]

/-- A deblocked view of row `i` across the columns `cols` (one tagged value per column). -/
def rowAt (cols : List (List V)) (i : Nat) : List V :=
  cols.map (fun c => c.getD i default)

/-- The indices of the rows selected by a bitmap. -/
def selIdxs (mask : List Bool) : List Nat :=
  (List.range mask.length).filter (fun i => mask.getD i false)

/-- The data rows selected by a bitmap, in row order. -/
def selRows (mask : List Bool) (cols : List (List V)) : List (List V) :=
  (selIdxs mask).map (rowAt cols)

/-- The logical content of one input block: for every selected row, its group-by key
together with its accumulator input row, in row order. -/
def selPairs (blk : InputBlock V) : List (Key V × List V) :=
  (selIdxs blk.mask).map (fun i => (rowAt blk.gbs i, rowAt blk.datas i))

/-! ## Tokenization -/

/-- The result of tokenizing one column (`value::TokenizedBlock`): the distinct token
values and, for every row, the index of its token. -/
structure TokenInfo (V : Type) where
  tokens : List V
  idxs : List Nat
  deriving DecidableEq, Repr

/-- The result of `tokenizeTokenInfos` (`BlockHashAggStage::TokenizedKeys`): the distinct
materialized compound keys and, for every row, its partition ordinal. -/
structure TokenizedKeys (V : Type) where
  keys : List (Key V)
  idxs : List Nat
  deriving DecidableEq, Repr

/-- First-seen deduplication worker: folds the input onto an accumulator, appending each
value not already present. -/
def fsDedupGo [DecidableEq α] (acc : List α) : List α → List α
  | [] => acc
  | v :: t => fsDedupGo (if v ∈ acc then acc else acc ++ [v]) t

/-- The distinct values of a list in first-seen order. -/
def fsDedup [DecidableEq α] (l : List α) : List α :=
  fsDedupGo [] l

/-- The position of the first occurrence of `a` in a list. -/
def posOf [DecidableEq α] (a : α) : List α → Nat
  | [] => 0
  | b :: t => if b = a then 0 else posOf a t + 1

/-- Modelled from the spec: `ValueBlock::tokenize` (declared in
`block_interface.h`, which is not part of the excerpted sources). Per the spec's
token-set contract it dictionary-encodes one column into "a sequence of distinct token
values (itself a block) plus a per-row index array mapping each original row to its
token's position". -/
def tokenizeColumn (col : List V) : TokenInfo V :=
  let tokens := fsDedup col
  ⟨tokens, col.map (fun v => posOf v tokens)⟩

/-- The compound key of row `row`: the per-column token indices, in column order
(one row of the `compoundKeys` matrix in `tokenizeTokenInfos`). -/
def compoundKeyAt (tis : List (TokenInfo V)) (row : Nat) : List Nat :=
  tis.map (fun ti => ti.idxs.getD row 0)

/-- Materializing the key for a compound token-index tuple: per column, the token value
the index denotes (`deblockedTokens[keyIdx][compoundKeys[idx]]`). -/
def materializeKey (tis : List (TokenInfo V)) (ck : List Nat) : Key V :=
  (tis.zip ck).map (fun p => p.1.tokens.getD p.2 default)

/-- The compound-key deduplication table `keyMap` of `tokenizeTokenInfos`, mapping a
compound token-index tuple to its partition ordinal. -/
def lookupCK (m : List (List Nat × Nat)) (c : List Nat) : Option Nat :=
  match m with
  | [] => none
  | e :: t => if e.1 = c then some e.2 else lookupCK t c

/-- The loop state of `tokenizeTokenInfos`: the compound-key table, the materialized
distinct keys, and the per-row partition ordinals accumulated so far. -/
structure TokState (V : Type) where
  keyMap : List (List Nat × Nat)
  keys : List (Key V)
  idxs : List Nat

/-- One iteration of the row loop of `tokenizeTokenInfos`: look the row's compound key
up; on a miss assign the next partition ordinal, fail if the partition ceiling is now
exceeded, otherwise materialize and record the new key; finally record the row's
ordinal. -/
def tokenizeRowStep (cap : Nat) (tis : List (TokenInfo V)) (st : TokState V) (row : Nat) :
    Option (TokState V) :=
  let ck := compoundKeyAt tis row
  match lookupCK st.keyMap ck with
  | some ord => some ⟨st.keyMap, st.keys, st.idxs ++ [ord]⟩
  | none =>
      let ord := st.keys.length
      if ord + 1 > cap then none
      else some ⟨st.keyMap ++ [(ck, ord)], st.keys ++ [materializeKey tis ck],
        st.idxs ++ [ord]⟩

/-- `BlockHashAggStage::tokenizeTokenInfos`: combine the per-column token indices into
compound keys, deduplicate them assigning partition ordinals in first-seen order, and
return the distinct materialized keys plus the per-row ordinal array; return `none`
(no result, routing to the fallback path) as soon as the number of distinct partitions
exceeds `cap`. The `invariant(!tokenInfos.empty())` at its head is the fatal case. -/
def tokenizeTokenInfos (cap : Nat) (tis : List (TokenInfo V)) :
    Except Err (Option (TokenizedKeys V)) :=
  if tis.isEmpty then .error .invariantFailure
  else
    let numRows := (tis.headD ⟨[], []⟩).idxs.length
    .ok (((List.range numRows).foldlM (tokenizeRowStep cap tis) ⟨[], [], []⟩).map
      (fun st => ⟨st.keys, st.idxs⟩))

/-- `BlockHashAggStage::tryTokenizeGbs`: tokenize every group-by column, fatally assert
(`tassert 8608600`) that every per-row index array matches the current block size, then
hand the token infos to `tokenizeTokenInfos`. -/
def tryTokenizeGbs (cap : Nat) (blockSize : Nat) (gbs : List (List V)) :
    Except Err (Option (TokenizedKeys V)) :=
  let tis := gbs.map tokenizeColumn
  if tis.all (fun ti => ti.idxs.length = blockSize) then tokenizeTokenInfos cap tis
  else .error (.tassert 8608600)

/-! ## The two accumulation strategies -/

/-- The `allFalse` helper: whether every bit of a selection bitmap is false. -/
def allFalseB (bs : List Bool) : Bool :=
  bs.all (fun b => !b)

/-- `computeBitmapForPartition`: the bitset marking the rows whose partition ordinal is
`p`. -/
def computeBitmapForPartition (pmap : List Nat) (p : Nat) : List Bool :=
  pmap.map (fun x => x = p)

/-- The `bitAnd` helper: pairwise AND of two bitsets. -/
def bitAndB (b1 b2 : List Bool) : List Bool :=
  List.zipWith and b1 b2

/-- `BlockHashAggStage::executeBlockLevelAccumulatorCode`: if every bit of the bound
accumulator bitmap is false, do nothing (no erroneous hash-table entry); otherwise
find-or-create the entry for `key` and run every block-level accumulator against the
bound bitmap and data blocks. -/
def execBlockLevel (aggs : List (AggSpec V A)) (datas : List (List V))
    (accBits : List Bool) (key : Key V) (ht : GroupTable V A) : GroupTable V A :=
  if allFalseB accBits then ht
  else htApply key (blockStepRow aggs accBits datas) (nothingRow aggs) ht

/-- The accumulator bitmap bound for partition `p` in `runAccumulatorsTokenized`:
with more than one partition, the partition bitmap ANDed with the input bitmap;
with a single partition, the input bitmap itself. -/
def accBitsFor (tk : TokenizedKeys V) (mask : List Bool) (p : Nat) : List Bool :=
  if 1 < tk.keys.length then bitAndB (computeBitmapForPartition tk.idxs p) mask
  else mask

/-- One partition of the loop of `runAccumulatorsTokenized`. -/
def partStep (aggs : List (AggSpec V A)) (datas : List (List V)) (mask : List Bool)
    (tk : TokenizedKeys V) (ht : GroupTable V A) (p : Nat) : GroupTable V A :=
  execBlockLevel aggs datas (accBitsFor tk mask p) (tk.keys.getD p []) ht

/-- `BlockHashAggStage::runAccumulatorsTokenized`: process the accumulators once per
partition rather than once per element. -/
def processTokenized (aggs : List (AggSpec V A)) (mask : List Bool)
    (datas : List (List V)) (tk : TokenizedKeys V) (ht : GroupTable V A) :
    GroupTable V A :=
  (List.range tk.keys.length).foldl (partStep aggs datas mask tk) ht

/-- The body of the row loop of `executeRowLevelAccumulatorCode` at row `i`: rows whose
selection bit is false are skipped; for a selected row, its key is built from the
deblocked group-by values, the entry is found or created, and every row-level
accumulator runs against the row's data values. -/
def rowWiseBody (aggs : List (AggSpec V A)) (blk : InputBlock V) (ht : GroupTable V A)
    (i : Nat) : GroupTable V A :=
  if blk.mask.getD i false then
    htApply (rowAt blk.gbs i) (rowStepRow aggs (rowAt blk.datas i)) (nothingRow aggs) ht
  else ht

/-- `BlockHashAggStage::runAccumulatorsElementWise` /
`executeRowLevelAccumulatorCode`: deblock everything and run the row-level
accumulators row by row over the current block size. -/
def processRowWise (aggs : List (AggSpec V A)) (blk : InputBlock V)
    (ht : GroupTable V A) : GroupTable V A :=
  (List.range blk.mask.length).foldl (rowWiseBody aggs blk) ht

/-- The per-block body of the input loop of `BlockHashAggStage::open`: try to tokenize
the group-by columns; on success run the block-level accumulators partition-wise,
otherwise fall back to the row-level accumulators. -/
def processBlock (cap : Nat) (aggs : List (AggSpec V A)) (blk : InputBlock V)
    (ht : GroupTable V A) : Except Err (GroupTable V A) := do
  match ← tryTokenizeGbs cap blk.mask.length blk.gbs with
  | some tk => pure (processTokenized aggs blk.mask blk.datas tk ht)
  | none => pure (processRowWise aggs blk ht)

/-! ## Spilling, the open loop, the spill-merge reader, and draining -/

/-- Modelled from the spec: the external spill log of `HashAggBaseStage::spill` /
`SpillingStore` (the record store lives in `hashagg_base.h/.cpp`, which is not part of
the excerpted sources). Per the spec, records for one key are presented adjacently by
the forward cursor (spill-log record adjacency for the same key is a documented
assumption of the merge reader), so the log is kept as an association from each spilled
key to its list of partial state rows in spill order, keys in first-spill order;
the cursor view is the flattening `flattenLog`. -/
abbrev SpillLog (V A : Type) := List (Key V × List (List A))

/-- The keys present in the spill log. -/
def logKeys (log : SpillLog V A) : List (Key V) :=
  log.map (fun e => e.1)

/-- The run of partial state rows the log holds for key `k`. -/
def lookupLog (k : Key V) : SpillLog V A → Option (List (List A))
  | [] => none
  | e :: t => if e.1 = k then some e.2 else lookupLog k t

/-- Modelled from the spec: appending one serialized `(key, accumulator-state)` record
to the external log. -/
def logInsert (log : SpillLog V A) (k : Key V) (sts : List A) : SpillLog V A :=
  match lookupLog k log with
  | some _ => log.map (fun e => if e.1 = k then (e.1, e.2 ++ [sts]) else e)
  | none => log ++ [(k, [sts])]

/-- Modelled from the spec: `HashAggBaseStage::spill` — serialize every current
`(key, accumulator-state)` pair of the table as one record appended to the log. The
caller clears the table afterwards. -/
def spillAll (ht : GroupTable V A) (log : SpillLog V A) : SpillLog V A :=
  ht.foldl (fun log e => logInsert log e.1 e.2) log

/-- The operator state while consuming input in `BlockHashAggStage::open`: the
in-memory group table, the external spill log, and whether any spill has occurred
(`_recordStore` being non-null). -/
structure OpenState (V A : Type) where
  ht : GroupTable V A
  log : SpillLog V A
  spilled : Bool
  deriving DecidableEq, Repr

/-- The post-accumulation memory step of the input loop of `open`: if the table is
non-empty, either always spill (`_forceIncreasedSpilling`) or spill when the memory
budget check demands it; spilling moves every table entry to the log and clears the
table. -/
def afterBlock (force : Bool) (budget : GroupTable V A → Bool) (st : OpenState V A) :
    OpenState V A :=
  if ¬st.ht.isEmpty ∧ (force ∨ budget st.ht) then ⟨[], spillAll st.ht st.log, true⟩
  else st

/-- The input-consuming loop of `BlockHashAggStage::open`: for every upstream block,
accumulate it into the table by one of the two strategies, then run the memory step. -/
def openLoop (cap : Nat) (aggs : List (AggSpec V A)) (force : Bool)
    (budget : GroupTable V A → Bool) (blocks : List (InputBlock V)) (st0 : OpenState V A) :
    Except Err (OpenState V A) :=
  blocks.foldlM (fun st blk => do
    let ht' ← processBlock cap aggs blk st.ht
    pure (afterBlock force budget ⟨ht', st.log, st.spilled⟩)) st0

/-- The end-of-input step of `open`: if any spill occurred (`_recordStore` non-null) and
the table still holds entries, do one final unconditional spill so that all grouped
state resides in the log. -/
def finalizeOpen (st : OpenState V A) : OpenState V A :=
  if st.spilled ∧ ¬st.ht.isEmpty then ⟨[], spillAll st.ht st.log, true⟩ else st

/-- `BlockHashAggStage::open`: consume the whole input, then run the final spill step. -/
def openStage (cap : Nat) (aggs : List (AggSpec V A)) (force : Bool)
    (budget : GroupTable V A → Bool) (blocks : List (InputBlock V)) :
    Except Err (OpenState V A) :=
  (openLoop cap aggs force budget blocks ⟨[], [], false⟩).map finalizeOpen

/-- The spill-merge reader's cursor state: the single-record lookahead
(`_stashedNextRow`) and the records the forward cursor has not yet returned. -/
structure ReaderState (V A : Type) where
  stash : Option (Key V × List A)
  recs : List (Key V × List A)
  deriving DecidableEq, Repr

/-- The record-consuming loop of `getNextSpilledHelper`: keep reading records while
their key equals the running key, merging each one's partial state row into the running
state row; the first record with a differing key is stashed for the next call. Returns
the final state row, the stash, and the unread remainder. -/
def readSameKey (aggs : List (AggSpec V A)) (k : Key V) (st : List A) :
    List (Key V × List A) → List A × Option (Key V × List A) × List (Key V × List A)
  | [] => (st, none, [])
  | r :: rs =>
      if r.1 = k then readSameKey aggs k (mergeStep aggs st r.2) rs
      else (st, some r, rs)

/-- `BlockHashAggStage::getNextSpilledHelper`: pop the first record of the next group
(from the stash when present, else from the cursor — returning "no group" when neither
has one), merge in every further record carrying the same key, and stash the first
record with a differing key. The accumulated state row starts from all-empty slots and
the first record is merged into it by the merging expressions, like every later one. -/
def getNextSpilledHelper (aggs : List (AggSpec V A)) (rs : ReaderState V A) :
    Option ((Key V × List A) × ReaderState V A) :=
  match rs.stash, rs.recs with
  | some (k, p), recs =>
      let st := mergeStep aggs (nothingRow aggs) p
      let out := readSameKey aggs k st recs
      some ((k, out.1), ⟨out.2.1, out.2.2⟩)
  | none, [] => none
  | none, r :: recs =>
      let st := mergeStep aggs (nothingRow aggs) r.2
      let out := readSameKey aggs r.1 st recs
      some ((r.1, out.1), ⟨out.2.1, out.2.2⟩)

/-- The cursor view of the spill log: its records in cursor order, one `(key, partial
state row)` pair per record. -/
def flattenLog (log : SpillLog V A) : List (Key V × List A) :=
  log.foldr (fun e acc => e.2.map (fun sts => (e.1, sts)) ++ acc) []

/-- Repeatedly calling `getNextSpilledHelper`, with explicit fuel, collecting the merged
groups it produces until it signals "no group". -/
def drainGroupsFuel (aggs : List (AggSpec V A)) : Nat → ReaderState V A →
    List (Key V × List A)
  | 0, _ => []
  | fuel + 1, rs =>
      match getNextSpilledHelper aggs rs with
      | none => []
      | some (g, rs') => g :: drainGroupsFuel aggs fuel rs'

/-- All merged groups the spill-merge reader produces from a cursor state. Every call of
the helper consumes at least one record, so `recs.length + 2` units of fuel always
suffice. -/
def drainGroups (aggs : List (AggSpec V A)) (rs : ReaderState V A) :
    List (Key V × List A) :=
  drainGroupsFuel aggs (rs.recs.length + 2) rs

/-- The set of `(group key, final accumulator state)` pairs the drain phase emits: when
a spill occurred, the merged groups recovered from the log; otherwise the live table's
entries (`BlockHashAggStage::getNext`). -/
def finalPairs (aggs : List (AggSpec V A)) (st : OpenState V A) :
    List (Key V × List A) :=
  if st.spilled then drainGroups aggs ⟨none, flattenLog st.log⟩ else st.ht

/-- One output batch: the emitted group rows and the freshly constructed selection
bitmap block that accompanies them. -/
structure OutBlock (V A : Type) where
  rows : List (Key V × List A)
  bitmap : List Bool
  deriving DecidableEq, Repr

/-- The row-collecting loop of `getNextSpilled`: ask the helper for up to `n` further
groups, stopping early when it signals "no group". -/
def collectGroups (aggs : List (AggSpec V A)) : Nat → ReaderState V A →
    List (Key V × List A) × ReaderState V A
  | 0, rs => ([], rs)
  | n + 1, rs =>
      match getNextSpilledHelper aggs rs with
      | none => ([], rs)
      | some (g, rs') =>
          let out := collectGroups aggs n rs'
          (g :: out.1, out.2)

/-- `BlockHashAggStage::getNextSpilled`: collect up to `kOut` merged groups into the out
blocks; with none collected signal EOF, otherwise emit them under an all-true bitmap
sized by `populateBitmapSlot`. -/
def getNextSpilledBlock (aggs : List (AggSpec V A)) (kOut : Nat) (rs : ReaderState V A) :
    Option (OutBlock V A × ReaderState V A) :=
  let out := collectGroups aggs kOut rs
  if out.1.isEmpty then none
  else some (⟨out.1, List.replicate out.1.length true⟩, out.2)

/-- Repeatedly calling `getNextSpilledBlock`, with explicit fuel, collecting the output
batches of the spilled drain path. -/
def drainSpilledBlocksFuel (aggs : List (AggSpec V A)) (kOut : Nat) :
    Nat → ReaderState V A → List (OutBlock V A)
  | 0, _ => []
  | fuel + 1, rs =>
      match getNextSpilledBlock aggs kOut rs with
      | none => []
      | some (b, rs') => b :: drainSpilledBlocksFuel aggs kOut fuel rs'

/-- Splitting a list into consecutive chunks of at most `k` elements. -/
def chunkList (k : Nat) (l : List α) : List (List α) :=
  if h : l.isEmpty ∨ k = 0 then []
  else l.take k :: chunkList k (l.drop k)
termination_by l.length
decreasing_by
  simp only [not_or, List.isEmpty_iff, ← List.length_pos_iff_ne_nil] at h
  simp only [List.length_drop]
  omega

/-- The in-memory drain path of `BlockHashAggStage::getNext` (no spill): iterate the
live table, emitting up to `kOut` group rows per output batch, each batch under an
all-true bitmap sized by `populateBitmapSlot`. -/
def drainInMemory (kOut : Nat) (ht : GroupTable V A) : List (OutBlock V A) :=
  (chunkList kOut ht).map (fun c => ⟨c, List.replicate c.length true⟩)

/-- Modelled from the spec: the fixed partition ceiling
`kMaxNumPartitionsForTokenizedPath` declared in `block_hashagg.h` (not part of the
excerpted sources). The spec fixes no numeric value — the theorems below are
parametric in the ceiling `cap`; this constant only instantiates them. -/
def kMaxNumPartitionsForTokenizedPath : Nat := 128

/-- Modelled from the spec: the fixed output batch row cap `kBlockOutSize` declared in
`block_hashagg.h` (not part of the excerpted sources). The spec fixes no numeric
value — the theorems below are parametric in the cap `kOut`; this constant only
instantiates them. -/
def kBlockOutSize : Nat := 128

/-- Accumulating one selected `(key, data row)` pair into the table: the net effect of
one iteration of the row loop of `executeRowLevelAccumulatorCode` on a selected row. -/
def applyPair (aggs : List (AggSpec V A)) (ht : GroupTable V A) (p : Key V × List V) :
    GroupTable V A :=
  htApply p.1 (rowStepRow aggs p.2) (nothingRow aggs) ht

/-- Accumulating a list of selected `(key, data row)` pairs in order. -/
def canonicalTable (aggs : List (AggSpec V A)) (pairs : List (Key V × List V))
    (ht : GroupTable V A) : GroupTable V A :=
  pairs.foldl (applyPair aggs) ht

/-- The data rows a pair list holds for key `k`, in order. -/
def rowsFor (k : Key V) (pairs : List (Key V × List V)) : List (List V) :=
  (pairs.filter (fun p => p.1 = k)).map (fun p => p.2)

/-- The accumulator state row the canonical row-wise semantics assigns to key `k`
after consuming `pairs`: absent when `k` never occurs, otherwise the row-level fold
over its data rows from all-empty slots. -/
def canonLook (aggs : List (AggSpec V A)) (pairs : List (Key V × List V)) (k : Key V) :
    Option (List A) :=
  if rowsFor k pairs = [] then none
  else some (foldRows aggs (nothingRow aggs) (rowsFor k pairs))

/-- The group table is exactly the canonical row-wise accumulation of `pairs`: its keys
are duplicate-free and every lookup agrees with the canonical semantics. -/
def TableChar (aggs : List (AggSpec V A)) (pairs : List (Key V × List V))
    (ht : GroupTable V A) : Prop :=
  (tableKeys ht).Nodup ∧ ∀ k, lookupTable k ht = canonLook aggs pairs k

/-- Pairing each list element with its position, starting from `i`. -/
def enumPairsFrom (i : Nat) : List α → List (α × Nat)
  | [] => []
  | a :: t => (a, i) :: enumPairsFrom (i + 1) t

/-- The compound keys of the first `m` rows, in row order. -/
def rowCompounds (tis : List (TokenInfo V)) (m : Nat) : List (List Nat) :=
  (List.range m).map (compoundKeyAt tis)

/-- The distinct compound keys of the first `m` rows, in first-seen order. -/
def distinctCompounds (tis : List (TokenInfo V)) (m : Nat) : List (List Nat) :=
  fsDedup (rowCompounds tis m)

/-- The canonical loop state of `tokenizeTokenInfos` after `m` rows. -/
def tokStateCanon (tis : List (TokenInfo V)) (m : Nat) : TokState V :=
  ⟨enumPairsFrom 0 (distinctCompounds tis m),
   (distinctCompounds tis m).map (materializeKey tis),
   (rowCompounds tis m).map (fun c => posOf c (distinctCompounds tis m))⟩

/-- The row count `tokenizeTokenInfos` works with: the length of the first token info's
per-row index array. -/
def numRowsOf (tis : List (TokenInfo V)) : Nat :=
  (tis.headD ⟨[], []⟩).idxs.length

/-- The canonical result of `tokenizeTokenInfos`: the materialized distinct compound
keys in first-seen order and the per-row partition ordinals. -/
def tokKeysCanon (tis : List (TokenInfo V)) : TokenizedKeys V :=
  ⟨(distinctCompounds tis (numRowsOf tis)).map (materializeKey tis),
   (rowCompounds tis (numRowsOf tis)).map
     (fun c => posOf c (distinctCompounds tis (numRowsOf tis)))⟩

/-- Well-formedness of a tokenization result for a block of `n` rows: one partition
ordinal per row, every ordinal in bounds, the materialized key of each row's ordinal
being exactly the row's group-by values, and pairwise-distinct keys. -/
structure TokWf (gbs : List (List V)) (n : Nat) (tk : TokenizedKeys V) : Prop where
  idxs_len : tk.idxs.length = n
  idx_lt : ∀ i < n, tk.idxs.getD i 0 < tk.keys.length
  key_at : ∀ i < n, tk.keys.getD (tk.idxs.getD i 0) [] = rowAt gbs i
  keys_nodup : tk.keys.Nodup

/-- The semantic hypothesis on the compiled accumulators: each block-level expression is
the reduction, by its row-level expression, of exactly the rows its bound selection
bitmap selects (the contract in the spec: "block-level and row-level variants must be
semantically equivalent reductions over the same logical rows", with the expression
honoring the selection mask internally). -/
def BlockRowEquiv (aggs : List (AggSpec V A)) : Prop :=
  ∀ g ∈ aggs, ∀ (mask : List Bool) (cols : List (List V)) (s : A),
    g.blockAgg mask cols s = (selRows mask cols).foldl (fun a r => g.rowAgg r a) s

/-- Well-formedness of one input block, as checked by the stage's assertions: at least
one group-by column (`invariant(!tokenInfos.empty())`) and every group-by column as
long as the selection bitmap (`tassert 8608600`). -/
def wfBlock (blk : InputBlock V) : Bool :=
  !blk.gbs.isEmpty && blk.gbs.all (fun col => col.length = blk.mask.length)

/-- Every block of the upstream stream processed by the fallback (row-wise) path:
the loop of `open` with `runAccumulatorsElementWise` on every iteration. -/
def runStreamRowWise (aggs : List (AggSpec V A)) (blocks : List (InputBlock V)) :
    GroupTable V A :=
  blocks.foldl (fun ht blk => processRowWise aggs blk ht) []

/-- The input-consuming loop of `open` without the memory step: each block processed by
`processBlock`, threading the group table. -/
def runStream (cap : Nat) (aggs : List (AggSpec V A)) (blocks : List (InputBlock V))
    (ht : GroupTable V A) : Except Err (GroupTable V A) :=
  blocks.foldlM (fun ht blk => processBlock cap aggs blk ht) ht

/-- The selected `(key, data row)` pairs of a whole input stream, in stream order. -/
def streamPairs (blocks : List (InputBlock V)) : List (Key V × List V) :=
  blocks.foldr (fun blk acc => selPairs blk ++ acc) []

/-- The value the spill-merge reader accumulates for one maximal run of same-key
records: all-empty slots merged with each partial state row in turn. -/
def mergeRun (aggs : List (AggSpec V A)) (ps : List (List A)) : List A :=
  ps.foldl (mergeStep aggs) (nothingRow aggs)

/-- The semantic hypothesis on the merging expressions: each one is the true
associative combination of its accumulator, i.e. merging a previous result with the
partial aggregate of some rows continues the row-level fold with those rows. -/
def MergeIsCombine (aggs : List (AggSpec V A)) : Prop :=
  ∀ g ∈ aggs, ∀ (a : A) (rows : List (List V)),
    g.merge a (rows.foldl (fun x r => g.rowAgg r x) g.nothingVal) =
      rows.foldl (fun x r => g.rowAgg r x) a

/-- Concatenating the per-run row lists. -/
def flatRows (rhos : List (List (List V))) : List (List V) :=
  rhos.foldr (fun r acc => r ++ acc) []

/-- The per-block partial aggregates spilled for key `k`, one per block in which `k`
has a selected row, in block order. -/
def blockRuns (aggs : List (AggSpec V A)) (blocks : List (InputBlock V))
    (k : Key V) : List (List A) :=
  blocks.filterMap (fun blk => canonLook aggs (selPairs blk) k)

/-- Two input blocks that are identical except possibly in the group-by and
accumulator-input values of rows whose selection bit is false. -/
def MaskedAgree (b1 b2 : InputBlock V) : Prop :=
  b1.mask = b2.mask ∧
    ∀ i, b1.mask.getD i false = true →
      rowAt b1.gbs i = rowAt b2.gbs i ∧ rowAt b1.datas i = rowAt b2.datas i

/-- Whether tokenization succeeds (and hence the tokenized path is taken) for a block. -/
def tokenizesOk (cap : Nat) (blk : InputBlock V) : Bool :=
  match tryTokenizeGbs cap blk.mask.length blk.gbs with
  | .ok (some _) => true
  | _ => false

/-- A concrete count-like accumulator over `Nat` values and `Nat` states: the row-level
expression increments the state, the block-level expression adds the number of selected
rows, and the merging expression adds partial counts. -/
def countAgg : AggSpec Nat Nat where
  nothingVal := 0
  rowAgg := fun _ a => a + 1
  blockAgg := fun mask cols s => (selRows mask cols).foldl (fun a _ => a + 1) s
  merge := fun a b => a + b

/-- A concrete two-row input block: both rows selected, one group-by column with both
rows in the same group, one accumulator input column. -/
def blkW : InputBlock Nat := ⟨[true, true], [[1, 1]], [[5, 7]]⟩

/-- A concrete block whose second row is deselected. -/
def blk9a : InputBlock Nat := ⟨[true, false], [[1, 1]], [[5, 7]]⟩

/-- The same block with different values in the deselected second row only. -/
def blk9b : InputBlock Nat := ⟨[true, false], [[1, 9]], [[5, 8]]⟩

/-! ## Basic facts about the group table -/

theorem lookupTable_nil (k : Key V) : lookupTable (A := A) k [] = none := rfl

theorem lookupTable_cons (k : Key V) (e : Key V × List A) (t : GroupTable V A) :
    lookupTable k (e :: t) = if e.1 = k then some e.2 else lookupTable k t := rfl

theorem lookupTable_append (k : Key V) (l r : GroupTable V A) :
    lookupTable k (l ++ r) =
      match lookupTable k l with
      | some v => some v
      | none => lookupTable k r := by
  induction l with
  | nil => simp [lookupTable]
  | cons e t ih =>
      by_cases h : e.1 = k <;> simp [lookupTable_cons, h, ih]

theorem lookupTable_eq_none_iff (k : Key V) (ht : GroupTable V A) :
    lookupTable k ht = none ↔ k ∉ tableKeys ht := by
  induction ht with
  | nil => simp [lookupTable, tableKeys]
  | cons e t ih =>
      by_cases h : e.1 = k <;>
        simp [lookupTable_cons, tableKeys, h, ih, eq_comm (a := k)]

theorem lookupTable_isSome_iff (k : Key V) (ht : GroupTable V A) :
    (lookupTable k ht).isSome ↔ k ∈ tableKeys ht := by
  rw [← Decidable.not_iff_not, ← lookupTable_eq_none_iff (A := A)]
  cases lookupTable k ht <;> simp

theorem lookupTable_split {k : Key V} {v : List A} {ht : GroupTable V A}
    (h : lookupTable k ht = some v) :
    ∃ l r, ht = l ++ (k, v) :: r ∧ k ∉ tableKeys l := by
  induction ht with
  | nil => simp [lookupTable] at h
  | cons e t ih =>
      rw [lookupTable_cons] at h
      by_cases he : e.1 = k
      · refine ⟨[], t, ?_, by simp [tableKeys]⟩
        simp [he] at h
        simp [← he, ← h]
      · simp only [he, if_false] at h
        obtain ⟨l, r, rfl, hl⟩ := ih h
        exact ⟨e :: l, r, rfl, by
          simp [tableKeys] at hl ⊢
          exact ⟨fun hh => he hh.symm, hl⟩⟩

theorem tableKeys_append (l r : GroupTable V A) :
    tableKeys (l ++ r) = tableKeys l ++ tableKeys r := by
  simp [tableKeys]

theorem tableKeys_map_snd (f : Key V × List A → List A) (ht : GroupTable V A) :
    tableKeys (ht.map (fun e => (e.1, f e))) = tableKeys ht := by
  simp [tableKeys]

/-- Two association lists with duplicate-free key lists and identical lookups hold the
same set of entries. -/
theorem table_perm_of_lookup {t₁ t₂ : GroupTable V A}
    (h₁ : (tableKeys t₁).Nodup) (h₂ : (tableKeys t₂).Nodup)
    (h : ∀ k, lookupTable k t₁ = lookupTable k t₂) : t₁.Perm t₂ := by
  induction t₁ generalizing t₂ with
  | nil =>
      cases t₂ with
      | nil => exact .refl _
      | cons e t =>
          have := h e.1
          simp [lookupTable] at this
  | cons e t ih =>
      have he : lookupTable e.1 t₂ = some e.2 := by
        rw [← h]; simp [lookupTable_cons]
      obtain ⟨l, r, rfl, hl⟩ := lookupTable_split he
      have hmid : (l ++ (e.1, e.2) :: r).Perm ((e.1, e.2) :: (l ++ r)) :=
        List.perm_middle
      have hkeys₂ : (tableKeys (l ++ r)).Nodup ∧ e.1 ∉ tableKeys (l ++ r) := by
        rw [tableKeys_append] at h₂ ⊢
        have : tableKeys ((e.1, e.2) :: r) = e.1 :: tableKeys r := rfl
        rw [this] at h₂
        have hm := List.nodup_cons.mp (List.nodup_middle.mp h₂)
        exact ⟨hm.2, hm.1⟩
      have hkeys₁ : (tableKeys t).Nodup ∧ e.1 ∉ tableKeys t := by
        have : tableKeys (e :: t) = e.1 :: tableKeys t := rfl
        rw [this] at h₁
        exact ⟨h₁.of_cons, (List.nodup_cons.mp h₁).1⟩
      have hlr : ∀ k, lookupTable k t = lookupTable k (l ++ r) := by
        intro k
        by_cases hk : k = e.1
        · subst hk
          rw [(lookupTable_eq_none_iff _ _).mpr hkeys₁.2,
            (lookupTable_eq_none_iff _ _).mpr hkeys₂.2]
        · have := h k
          rw [lookupTable_cons] at this
          simp only [show e.1 ≠ k from fun hh => hk hh.symm, if_false] at this
          rw [this, lookupTable_append, lookupTable_append]
          cases hcl : lookupTable k l with
          | some v => simp
          | none =>
              simp only []
              rw [lookupTable_cons]
              simp [show e.1 ≠ k from fun hh => hk hh.symm]
      have hperm : t.Perm (l ++ r) := ih hkeys₁.1 hkeys₂.1 hlr
      have : (e :: t).Perm ((e.1, e.2) :: (l ++ r)) := List.Perm.cons _ hperm
      exact this.trans hmid.symm

theorem foldl_ext_eq (f g : β → α → β) (l : List α) (b : β)
    (h : ∀ b a, a ∈ l → f b a = g b a) : l.foldl f b = l.foldl g b := by
  induction l generalizing b with
  | nil => rfl
  | cons a t ih =>
      rw [List.foldl_cons, List.foldl_cons, h _ _ (by simp)]
      exact ih _ (fun b a ha => h _ _ (by simp [ha]))

theorem foldl_filter_eq (f : β → α → β) (p : α → Bool) (l : List α) (b : β) :
    (l.filter p).foldl f b = l.foldl (fun b a => if p a then f b a else b) b := by
  induction l generalizing b with
  | nil => rfl
  | cons a t ih =>
      by_cases h : p a <;> simp [List.filter_cons, h, ih]

theorem lookupTable_mapUpdate_self {k : Key V} {f : List A → List A}
    {ht : GroupTable V A} {v : List A} (h : lookupTable k ht = some v) :
    lookupTable k (ht.map (fun e => if e.1 = k then (e.1, f e.2) else e)) = some (f v) := by
  induction ht with
  | nil => simp [lookupTable] at h
  | cons e t ih =>
      rw [lookupTable_cons] at h
      by_cases he : e.1 = k
      · simp only [he, if_true] at h
        have hv := Option.some.inj h
        simp [List.map_cons, he, lookupTable_cons, hv]
      · simp only [he, if_false] at h
        simp [List.map_cons, he, lookupTable_cons, ih h]

theorem lookupTable_mapUpdate_ne {k k' : Key V} (f : List A → List A)
    (ht : GroupTable V A) (hne : k' ≠ k) :
    lookupTable k' (ht.map (fun e => if e.1 = k then (e.1, f e.2) else e)) =
      lookupTable k' ht := by
  induction ht with
  | nil => rfl
  | cons e t ih =>
      by_cases he : e.1 = k
      · have hkk : k ≠ k' := fun hh => hne hh.symm
        simp [List.map_cons, he, lookupTable_cons, hkk, ih]
      · simp only [List.map_cons, he, if_false, lookupTable_cons, ih]

theorem lookupTable_htApply_self (k : Key V) (f : List A → List A) (fresh : List A)
    (ht : GroupTable V A) :
    lookupTable k (htApply k f fresh ht) =
      some (f ((lookupTable k ht).getD fresh)) := by
  cases h : lookupTable k ht with
  | some v => simp [htApply, h, lookupTable_mapUpdate_self (f := f) h]
  | none => simp [htApply, h, lookupTable_append, lookupTable_cons]

theorem lookupTable_htApply_ne (k k' : Key V) (f : List A → List A) (fresh : List A)
    (ht : GroupTable V A) (hne : k' ≠ k) :
    lookupTable k' (htApply k f fresh ht) = lookupTable k' ht := by
  cases h : lookupTable k ht with
  | some v => simp [htApply, h, lookupTable_mapUpdate_ne f ht hne]
  | none =>
      have hkk : k ≠ k' := fun hh => hne hh.symm
      simp only [htApply, h, lookupTable_append]
      cases lookupTable k' ht <;> simp [lookupTable_cons, hkk, lookupTable]

theorem tableKeys_htApply (k : Key V) (f : List A → List A) (fresh : List A)
    (ht : GroupTable V A) :
    tableKeys (htApply k f fresh ht) =
      if k ∈ tableKeys ht then tableKeys ht else tableKeys ht ++ [k] := by
  cases h : lookupTable k ht with
  | some v =>
      have hk : k ∈ tableKeys ht := (lookupTable_isSome_iff k ht).mp (by simp [h])
      have hmap : tableKeys (ht.map (fun e => if e.1 = k then (e.1, f e.2) else e)) =
          tableKeys ht := by
        simp only [tableKeys, List.map_map]
        apply List.map_congr_left
        intro e _
        by_cases he : e.1 = k <;> simp [Function.comp, he]
      simp only [htApply, h, hmap, hk, if_true]
  | none =>
      have hk : k ∉ tableKeys ht := (lookupTable_eq_none_iff k ht).mp h
      simp only [htApply, h, tableKeys, List.map_append, List.map_cons, List.map_nil]
      rw [if_neg (by simpa [tableKeys] using hk)]

theorem nodup_tableKeys_htApply (k : Key V) (f : List A → List A) (fresh : List A)
    (ht : GroupTable V A) (h : (tableKeys ht).Nodup) :
    (tableKeys (htApply k f fresh ht)).Nodup := by
  rw [tableKeys_htApply]
  by_cases hk : k ∈ tableKeys ht
  · simpa [hk]
  · simpa [hk, List.nodup_append]

/-! ## The canonical row-wise characterization -/

theorem rowsFor_append (k : Key V) (ps qs : List (Key V × List V)) :
    rowsFor k (ps ++ qs) = rowsFor k ps ++ rowsFor k qs := by
  simp [rowsFor]

theorem foldRows_append (aggs : List (AggSpec V A)) (sts : List A)
    (r1 r2 : List (List V)) :
    foldRows aggs sts (r1 ++ r2) = foldRows aggs (foldRows aggs sts r1) r2 := by
  simp [foldRows]

theorem canonLook_append_single (aggs : List (AggSpec V A))
    (pairs : List (Key V × List V)) (p : Key V × List V) (k : Key V) :
    canonLook aggs (pairs ++ [p]) k =
      if p.1 = k then
        some (rowStepRow aggs p.2 ((canonLook aggs pairs k).getD (nothingRow aggs)))
      else canonLook aggs pairs k := by
  by_cases hp : p.1 = k
  · have hrows : rowsFor k (pairs ++ [p]) = rowsFor k pairs ++ [p.2] := by
      simp [rowsFor_append, rowsFor, hp]
    by_cases hempty : rowsFor k pairs = []
    · simp [canonLook, hrows, hempty, hp, foldRows, rowStepRow]
    · simp [canonLook, hrows, hempty, hp, foldRows_append, foldRows, rowStepRow]
  · have hrows : rowsFor k (pairs ++ [p]) = rowsFor k pairs := by
      simp [rowsFor_append, rowsFor, hp]
    simp [canonLook, hrows, hp]

theorem tableChar_applyPair {aggs : List (AggSpec V A)} {pairs : List (Key V × List V)}
    {ht : GroupTable V A} (h : TableChar aggs pairs ht) (p : Key V × List V) :
    TableChar aggs (pairs ++ [p]) (applyPair aggs ht p) := by
  obtain ⟨hnd, hlook⟩ := h
  refine ⟨nodup_tableKeys_htApply _ _ _ _ hnd, fun k => ?_⟩
  rw [canonLook_append_single]
  by_cases hp : p.1 = k
  · subst hp
    rw [applyPair, lookupTable_htApply_self, hlook p.1]
    simp
  · rw [applyPair, lookupTable_htApply_ne _ _ _ _ _ (fun hh => hp hh.symm), hlook k]
    simp [hp]

theorem tableChar_canonicalTable {aggs : List (AggSpec V A)}
    {pairs : List (Key V × List V)} {ht : GroupTable V A}
    (h : TableChar aggs pairs ht) (ps : List (Key V × List V)) :
    TableChar aggs (pairs ++ ps) (canonicalTable aggs ps ht) := by
  induction ps generalizing pairs ht with
  | nil => simpa [canonicalTable] using h
  | cons p ps ih =>
      have h1 := tableChar_applyPair h p
      have h2 := ih h1
      simpa [canonicalTable] using h2

theorem tableChar_nil (aggs : List (AggSpec V A)) :
    TableChar (V := V) aggs [] [] := by
  exact ⟨List.nodup_nil, fun k => by simp [lookupTable, canonLook, rowsFor]⟩

/-- The row-wise fallback path is literally the canonical accumulation of the block's
selected `(key, data row)` pairs. -/
theorem processRowWise_eq_canonical (aggs : List (AggSpec V A)) (blk : InputBlock V)
    (ht : GroupTable V A) :
    processRowWise aggs blk ht = canonicalTable aggs (selPairs blk) ht := by
  rw [processRowWise, canonicalTable, selPairs, List.foldl_map, selIdxs,
    foldl_filter_eq]
  apply foldl_ext_eq
  intro b a _
  by_cases h : blk.mask.getD a false <;> simp [rowWiseBody, applyPair, h]

/-! ## First-seen deduplication and first-occurrence positions -/

section Dedup

variable {α : Type} [DecidableEq α]

theorem fsDedupGo_append (acc : List α) (l1 l2 : List α) :
    fsDedupGo acc (l1 ++ l2) = fsDedupGo (fsDedupGo acc l1) l2 := by
  induction l1 generalizing acc with
  | nil => rfl
  | cons a t ih => simp [fsDedupGo, ih]

theorem fsDedupGo_sub (acc : List α) (l : List α) :
    ∃ t, fsDedupGo acc l = acc ++ t := by
  induction l generalizing acc with
  | nil => exact ⟨[], by simp [fsDedupGo]⟩
  | cons a t ih =>
      by_cases h : a ∈ acc
      · simpa [fsDedupGo, h] using ih acc
      · obtain ⟨u, hu⟩ := ih (acc ++ [a])
        exact ⟨[a] ++ u, by simp [fsDedupGo, h, hu]⟩

theorem mem_fsDedupGo (acc : List α) (l : List α) (x : α) :
    x ∈ fsDedupGo acc l ↔ x ∈ acc ∨ x ∈ l := by
  induction l generalizing acc with
  | nil => simp [fsDedupGo]
  | cons a t ih =>
      simp only [fsDedupGo]
      by_cases h : a ∈ acc
      · rw [if_pos h, ih]
        constructor
        · rintro (h1 | h1)
          · exact Or.inl h1
          · exact Or.inr (List.mem_cons_of_mem a h1)
        · rintro (h1 | h1)
          · exact Or.inl h1
          · rcases List.mem_cons.mp h1 with h2 | h2
            · exact Or.inl (h2 ▸ h)
            · exact Or.inr h2
      · rw [if_neg h, ih]
        simp [List.mem_append, List.mem_cons, or_assoc]

theorem nodup_fsDedupGo (acc : List α) (l : List α) (h : acc.Nodup) :
    (fsDedupGo acc l).Nodup := by
  induction l generalizing acc with
  | nil => exact h
  | cons a t ih =>
      simp only [fsDedupGo]
      by_cases ha : a ∈ acc
      · rw [if_pos ha]; exact ih acc h
      · rw [if_neg ha]
        exact ih (acc ++ [a]) (by simp [List.nodup_append, h, ha])

theorem nodup_fsDedup (l : List α) : (fsDedup l).Nodup :=
  nodup_fsDedupGo [] l List.nodup_nil

theorem mem_fsDedup (l : List α) (x : α) : x ∈ fsDedup l ↔ x ∈ l := by
  simp [fsDedup, mem_fsDedupGo]

theorem fsDedup_append_single (l : List α) (a : α) :
    fsDedup (l ++ [a]) =
      if a ∈ fsDedup l then fsDedup l else fsDedup l ++ [a] := by
  rw [fsDedup, fsDedupGo_append]
  rfl

theorem length_fsDedup_mono (l t : List α) :
    (fsDedup l).length ≤ (fsDedup (l ++ t)).length := by
  rw [fsDedup, fsDedup, fsDedupGo_append]
  obtain ⟨u, hu⟩ := fsDedupGo_sub (fsDedupGo [] l) t
  simp [hu]

theorem posOf_lt_length {a : α} {l : List α} (h : a ∈ l) : posOf a l < l.length := by
  induction l with
  | nil => simp at h
  | cons b t ih =>
      by_cases hb : b = a
      · simp [posOf, hb]
      · have : a ∈ t := by
          rcases List.mem_cons.mp h with h1 | h1
          · exact absurd h1.symm hb
          · exact h1
        simpa [posOf, hb] using ih this

theorem getD_posOf {a : α} {l : List α} (h : a ∈ l) (d : α) :
    l.getD (posOf a l) d = a := by
  induction l with
  | nil => simp at h
  | cons b t ih =>
      by_cases hb : b = a
      · simp [posOf, hb]
      · have : a ∈ t := by
          rcases List.mem_cons.mp h with h1 | h1
          · exact absurd h1.symm hb
          · exact h1
        simpa [posOf, hb] using ih this

theorem posOf_append_left {a : α} {l : List α} (h : a ∈ l) (t : List α) :
    posOf a (l ++ t) = posOf a l := by
  induction l with
  | nil => simp at h
  | cons b u ih =>
      by_cases hb : b = a
      · simp [posOf, hb]
      · have : a ∈ u := by
          rcases List.mem_cons.mp h with h1 | h1
          · exact absurd h1.symm hb
          · exact h1
        simp [posOf, hb, ih this]

theorem posOf_append_self {a : α} {l : List α} (h : a ∉ l) :
    posOf a (l ++ [a]) = l.length := by
  induction l with
  | nil => simp [posOf]
  | cons b u ih =>
      have hb : b ≠ a := fun hh => h (by simp [hh])
      have : a ∉ u := fun hh => h (by simp [hh])
      simp [posOf, hb, ih this]

theorem getD_nodup_inj {l : List α} (h : l.Nodup) {i j : Nat} (hi : i < l.length)
    (hj : j < l.length) (d : α) (heq : l.getD i d = l.getD j d) : i = j := by
  rw [List.getD_eq_getElem _ _ hi, List.getD_eq_getElem _ _ hj] at heq
  exact (List.Nodup.getElem_inj_iff h).mp heq

theorem posOf_getD {l : List α} (h : l.Nodup) {i : Nat} (hi : i < l.length) (d : α) :
    posOf (l.getD i d) l = i := by
  have hmem : l.getD i d ∈ l := by
    rw [List.getD_eq_getElem _ _ hi]
    exact List.getElem_mem hi
  exact getD_nodup_inj h (posOf_lt_length hmem) hi d (by rw [getD_posOf hmem])

theorem map_fsDedupGo {β : Type} [DecidableEq β] (f : α → β) (l : List α)
    (hinj : ∀ x ∈ l, ∀ y ∈ l, f x = f y → x = y) :
    ∀ (rest acc : List α), (∀ x ∈ acc, x ∈ l) → (∀ x ∈ rest, x ∈ l) →
      (fsDedupGo acc rest).map f = fsDedupGo (acc.map f) (rest.map f) := by
  intro rest
  induction rest with
  | nil => intro acc _ _; rfl
  | cons v t ih =>
      intro acc hacc hrest
      have hv : v ∈ l := hrest v (by simp)
      have hmem : (f v ∈ acc.map f) ↔ v ∈ acc := by
        constructor
        · intro h
          obtain ⟨x, hx, hfx⟩ := List.mem_map.mp h
          rwa [hinj x (hacc x hx) v hv hfx] at hx
        · intro h
          exact List.mem_map.mpr ⟨v, h, rfl⟩
      by_cases h : v ∈ acc
      · have : f v ∈ acc.map f := hmem.mpr h
        rw [List.map_cons]
        simp only [fsDedupGo, h, if_true, this]
        exact ih acc hacc (fun x hx => hrest x (by simp [hx]))
      · have : f v ∉ acc.map f := fun hh => h (hmem.mp hh)
        rw [List.map_cons]
        simp only [fsDedupGo, h, if_false, this]
        have step := ih (acc ++ [v]) (fun x hx => by
          rcases List.mem_append.mp hx with h1 | h1
          · exact hacc x h1
          · simp at h1; rw [h1]; exact hv) (fun x hx => hrest x (by simp [hx]))
        simpa using step

/-- Mapping an injective-on-members function commutes with first-seen deduplication. -/
theorem map_fsDedup {β : Type} [DecidableEq β] (f : α → β) (l : List α)
    (hinj : ∀ x ∈ l, ∀ y ∈ l, f x = f y → x = y) :
    (fsDedup l).map f = fsDedup (l.map f) :=
  map_fsDedupGo f l hinj l [] (by simp) (fun x hx => hx)

end Dedup

/-! ## Characterizing the tokenizer -/

theorem enumPairsFrom_append_single (i : Nat) (l : List α) (a : α) :
    enumPairsFrom i (l ++ [a]) = enumPairsFrom i l ++ [(a, i + l.length)] := by
  induction l generalizing i with
  | nil => simp [enumPairsFrom]
  | cons b t ih =>
      have harith : i + 1 + t.length = i + (t.length + 1) := by omega
      simp only [List.cons_append, enumPairsFrom, List.length_cons]
      rw [← harith]
      simp only [List.cons.injEq, true_and]
      exact ih (i + 1)

theorem lookupCK_enumPairsFrom (i : Nat) (d : List (List Nat)) (c : List Nat) :
    lookupCK (enumPairsFrom i d) c = if c ∈ d then some (i + posOf c d) else none := by
  induction d generalizing i with
  | nil => simp [enumPairsFrom, lookupCK]
  | cons a t ih =>
      by_cases h : a = c
      · simp [enumPairsFrom, lookupCK, h, posOf]
      · have hmc : (c ∈ a :: t) = (c ∈ t) := by
          simp only [List.mem_cons, eq_iff_iff]
          constructor
          · rintro (h1 | h1)
            · exact absurd h1.symm h
            · exact h1
          · exact Or.inr
        simp only [enumPairsFrom, lookupCK, h, if_false, ih, hmc, posOf]
        by_cases hm : c ∈ t
        · simp only [hm, if_true]
          congr 1
          omega
        · simp [hm]

theorem rowCompounds_succ (tis : List (TokenInfo V)) (m : Nat) :
    rowCompounds tis (m + 1) = rowCompounds tis m ++ [compoundKeyAt tis m] := by
  simp [rowCompounds, List.range_succ]

/-- The row loop of `tokenizeTokenInfos` succeeds after `m` rows exactly when the number
of distinct compound keys seen so far is within the ceiling, and its state is then the
canonical one. -/
theorem tokenizeFold_eq (cap : Nat) (tis : List (TokenInfo V)) (m : Nat) :
    (List.range m).foldlM (tokenizeRowStep cap tis) (⟨[], [], []⟩ : TokState V) =
      if (distinctCompounds tis m).length ≤ cap then some (tokStateCanon tis m)
      else none := by
  induction m with
  | zero =>
      simp [distinctCompounds, rowCompounds, fsDedup, fsDedupGo, tokStateCanon,
        enumPairsFrom]
  | succ m ih =>
      rw [List.range_succ, List.foldlM_append, ih]
      by_cases hle : (distinctCompounds tis m).length ≤ cap
      · rw [if_pos hle]
        have hlook : lookupCK (tokStateCanon tis m).keyMap (compoundKeyAt tis m) =
            if compoundKeyAt tis m ∈ distinctCompounds tis m
            then some (posOf (compoundKeyAt tis m) (distinctCompounds tis m))
            else none := by
          have := lookupCK_enumPairsFrom 0 (distinctCompounds tis m) (compoundKeyAt tis m)
          simpa [tokStateCanon] using this
        have hkeysLen : (tokStateCanon tis m).keys.length =
            (distinctCompounds tis m).length := by
          simp [tokStateCanon]
        by_cases hmem : compoundKeyAt tis m ∈ distinctCompounds tis m
        · have hD : distinctCompounds tis (m + 1) = distinctCompounds tis m := by
            rw [distinctCompounds, rowCompounds_succ, fsDedup_append_single,
              if_pos (show compoundKeyAt tis m ∈ fsDedup (rowCompounds tis m) from hmem)]
            rfl
          have hcond : (distinctCompounds tis (m + 1)).length ≤ cap := by
            rw [hD]; exact hle
          rw [if_pos hcond]
          have hstep : tokenizeRowStep cap tis (tokStateCanon tis m) m =
              some ⟨(tokStateCanon tis m).keyMap, (tokStateCanon tis m).keys,
                (tokStateCanon tis m).idxs ++
                  [posOf (compoundKeyAt tis m) (distinctCompounds tis m)]⟩ := by
            simp only [tokenizeRowStep, hlook, hmem, if_true]
          simp only [List.foldlM_cons, List.foldlM_nil, Option.bind_eq_bind,
            Option.some_bind, hstep, Option.pure_def]
          refine congrArg some ?_
          simp only [tokStateCanon, hD, rowCompounds_succ, List.map_append,
            List.map_cons, List.map_nil]
        · have hD : distinctCompounds tis (m + 1) =
              distinctCompounds tis m ++ [compoundKeyAt tis m] := by
            rw [distinctCompounds, rowCompounds_succ, fsDedup_append_single,
              if_neg (show ¬compoundKeyAt tis m ∈ fsDedup (rowCompounds tis m) from hmem)]
            rfl
          by_cases hcap2 : (distinctCompounds tis m).length + 1 > cap
          · have hcond : ¬(distinctCompounds tis (m + 1)).length ≤ cap := by
              rw [hD]; simp; omega
            rw [if_neg hcond]
            have hstep : tokenizeRowStep cap tis (tokStateCanon tis m) m = none := by
              simp only [tokenizeRowStep, hlook, hmem, if_false, hkeysLen]
              rw [if_pos hcap2]
            simp only [List.foldlM_cons, List.foldlM_nil, Option.bind_eq_bind,
              Option.some_bind, hstep, Option.none_bind]
          · have hcond : (distinctCompounds tis (m + 1)).length ≤ cap := by
              rw [hD]; simp; omega
            rw [if_pos hcond]
            have hstep : tokenizeRowStep cap tis (tokStateCanon tis m) m =
                some ⟨(tokStateCanon tis m).keyMap ++
                    [(compoundKeyAt tis m, (distinctCompounds tis m).length)],
                  (tokStateCanon tis m).keys ++
                    [materializeKey tis (compoundKeyAt tis m)],
                  (tokStateCanon tis m).idxs ++ [(distinctCompounds tis m).length]⟩ := by
              simp only [tokenizeRowStep, hlook, hmem, if_false, hkeysLen]
              rw [if_neg hcap2]
            simp only [List.foldlM_cons, List.foldlM_nil, Option.bind_eq_bind,
              Option.some_bind, hstep, Option.pure_def]
            refine congrArg some ?_
            have hidxs : (rowCompounds tis m).map
                (fun c => posOf c (distinctCompounds tis m ++ [compoundKeyAt tis m])) =
                (rowCompounds tis m).map
                  (fun c => posOf c (distinctCompounds tis m)) := by
              apply List.map_congr_left
              intro c hc
              have hcd : c ∈ distinctCompounds tis m := by
                rw [distinctCompounds, mem_fsDedup]; exact hc
              exact posOf_append_left hcd _
            simp only [tokStateCanon, hD, rowCompounds_succ,
              enumPairsFrom_append_single, List.map_append, List.map_cons,
              List.map_nil, hidxs, posOf_append_self hmem, Nat.zero_add]
      · rw [if_neg hle]
        have hcond : ¬(distinctCompounds tis (m + 1)).length ≤ cap := by
          have := length_fsDedup_mono (rowCompounds tis m) [compoundKeyAt tis m]
          rw [distinctCompounds, rowCompounds_succ]
          rw [distinctCompounds] at hle
          omega
        rw [if_neg hcond]
        rfl

theorem tokenizeTokenInfos_eq (cap : Nat) (tis : List (TokenInfo V)) (h : tis ≠ []) :
    tokenizeTokenInfos cap tis =
      .ok (if (distinctCompounds tis (numRowsOf tis)).length ≤ cap
           then some (tokKeysCanon tis) else none) := by
  rw [tokenizeTokenInfos, if_neg (by simpa using h)]
  simp only [numRowsOf, tokenizeFold_eq]
  by_cases hc : (distinctCompounds tis (tis.headD ⟨[], []⟩).idxs.length).length ≤ cap
  · rw [if_pos hc, if_pos hc]
    rfl
  · rw [if_neg hc, if_neg hc]
    rfl

theorem tokenizeColumn_idxs_length (col : List V) :
    (tokenizeColumn col).idxs.length = col.length := by
  simp [tokenizeColumn]

theorem tokenizeColumn_tokens_nodup (col : List V) :
    (tokenizeColumn col).tokens.Nodup :=
  nodup_fsDedup col

theorem getD_eq_getElem' {α : Type} {l : List α} {i : Nat} (h : i < l.length) (d : α) :
    l.getD i d = l[i] := by
  rw [List.getD_eq_getElem?_getD, List.getElem?_eq_getElem h]
  rfl

theorem tokenizeColumn_idx_lt (col : List V) (i : Nat) (hi : i < col.length) :
    (tokenizeColumn col).idxs.getD i 0 < (tokenizeColumn col).tokens.length := by
  have hlen : i < (col.map (fun v => posOf v (fsDedup col))).length := by simpa using hi
  simp only [tokenizeColumn]
  rw [getD_eq_getElem' hlen, List.getElem_map]
  exact posOf_lt_length (by rw [mem_fsDedup]; exact List.getElem_mem _)

theorem tokenizeColumn_token_at (col : List V) (i : Nat) (hi : i < col.length) :
    (tokenizeColumn col).tokens.getD ((tokenizeColumn col).idxs.getD i 0) default =
      col.getD i default := by
  have hlen : i < (col.map (fun v => posOf v (fsDedup col))).length := by simpa using hi
  simp only [tokenizeColumn]
  rw [getD_eq_getElem' hlen, List.getElem_map]
  rw [getD_posOf (by rw [mem_fsDedup]; exact List.getElem_mem _) default]
  rw [getD_eq_getElem' hi]

/-- Materializing a row's compound key recovers exactly the row's group-by values. -/
theorem materializeKey_compound (gbs : List (List V)) (i : Nat)
    (h : ∀ col ∈ gbs, i < col.length) :
    materializeKey (gbs.map tokenizeColumn)
      (compoundKeyAt (gbs.map tokenizeColumn) i) = rowAt gbs i := by
  induction gbs with
  | nil => rfl
  | cons g t ih =>
      have hg : i < g.length := h g (by simp)
      have ht : ∀ col ∈ t, i < col.length := fun col hc => h col (by simp [hc])
      simp only [List.map_cons, materializeKey, compoundKeyAt, List.zip_cons_cons,
        rowAt]
      congr 1
      · exact tokenizeColumn_token_at g i hg
      · simpa [materializeKey, compoundKeyAt, rowAt] using ih ht

/-- Materialization is injective on the compound keys of actual rows: distinct
compound token-index tuples materialize to distinct keys. -/
theorem materializeKey_inj (gbs : List (List V)) (i j : Nat)
    (hi : ∀ col ∈ gbs, i < col.length) (hj : ∀ col ∈ gbs, j < col.length)
    (heq : materializeKey (gbs.map tokenizeColumn)
        (compoundKeyAt (gbs.map tokenizeColumn) i) =
      materializeKey (gbs.map tokenizeColumn)
        (compoundKeyAt (gbs.map tokenizeColumn) j)) :
    compoundKeyAt (gbs.map tokenizeColumn) i =
      compoundKeyAt (gbs.map tokenizeColumn) j := by
  induction gbs with
  | nil => rfl
  | cons g t ih =>
      have hgi : i < g.length := hi g (by simp)
      have hgj : j < g.length := hj g (by simp)
      simp only [List.map_cons, materializeKey, compoundKeyAt, List.zip_cons_cons,
        List.cons.injEq] at heq ⊢
      refine ⟨?_, ?_⟩
      · exact getD_nodup_inj (tokenizeColumn_tokens_nodup g)
          (tokenizeColumn_idx_lt g i hgi) (tokenizeColumn_idx_lt g j hgj) default heq.1
      · have := ih (fun col hc => hi col (by simp [hc])) (fun col hc => hj col (by simp [hc]))
          (by simpa [materializeKey, compoundKeyAt] using heq.2)
        simpa [compoundKeyAt] using this

theorem numRowsOf_map (gbs : List (List V)) (n : Nat) (hne : gbs ≠ [])
    (hlen : ∀ col ∈ gbs, col.length = n) :
    numRowsOf (gbs.map tokenizeColumn) = n := by
  cases gbs with
  | nil => exact absurd rfl hne
  | cons g t =>
      simp only [List.map_cons, numRowsOf, List.headD_cons,
        tokenizeColumn_idxs_length]
      exact hlen g (by simp)

theorem tryTokenizeGbs_wf (cap n : Nat) (gbs : List (List V)) (hne : gbs ≠ [])
    (hlen : ∀ col ∈ gbs, col.length = n) :
    tryTokenizeGbs cap n gbs =
      .ok (if (distinctCompounds (gbs.map tokenizeColumn) n).length ≤ cap
           then some (tokKeysCanon (gbs.map tokenizeColumn)) else none) := by
  rw [tryTokenizeGbs]
  have hall : (gbs.map tokenizeColumn).all
      (fun ti => decide (ti.idxs.length = n)) = true := by
    rw [List.all_eq_true]
    intro ti hti
    obtain ⟨col, hc, rfl⟩ := List.mem_map.mp hti
    simp [tokenizeColumn_idxs_length, hlen col hc]
  rw [if_pos hall]
  rw [tokenizeTokenInfos_eq cap _ (by simpa using hne)]
  rw [numRowsOf_map gbs n hne hlen]

theorem canonIdxs_getD (tis : List (TokenInfo V)) (n : Nat) {i : Nat} (hi : i < n) :
    ((rowCompounds tis n).map
      (fun c => posOf c (distinctCompounds tis n))).getD i 0 =
      posOf (compoundKeyAt tis i) (distinctCompounds tis n) := by
  rw [rowCompounds, List.map_map]
  rw [getD_eq_getElem' (by simpa using hi), List.getElem_map]
  simp

theorem compound_mem_distinct (tis : List (TokenInfo V)) {n i : Nat} (hi : i < n) :
    compoundKeyAt tis i ∈ distinctCompounds tis n := by
  rw [distinctCompounds, mem_fsDedup, rowCompounds]
  exact List.mem_map.mpr ⟨i, by simpa using hi, rfl⟩

/-- On a well-formed block, a successful tokenization produces well-formed tokenized
keys: the key list is the first-seen deduplication of the per-row group-by keys, it is
within the ceiling, and the per-row ordinals index it correctly. -/
theorem tryTokenizeGbs_wf_some {cap n : Nat} {gbs : List (List V)}
    {tk : TokenizedKeys V} (hne : gbs ≠ []) (hlen : ∀ col ∈ gbs, col.length = n)
    (h : tryTokenizeGbs cap n gbs = .ok (some tk)) :
    TokWf gbs n tk ∧ tk.keys.length ≤ cap ∧
      tk.keys = fsDedup ((List.range n).map (fun i => rowAt gbs i)) := by
  rw [tryTokenizeGbs_wf cap n gbs hne hlen] at h
  by_cases hc : (distinctCompounds (gbs.map tokenizeColumn) n).length ≤ cap
  swap
  · rw [if_neg hc] at h
    exact absurd (Except.ok.inj h) (by simp)
  rw [if_pos hc] at h
  have htk := (Option.some.inj (Except.ok.inj h)).symm
  subst htk
  have hnum : numRowsOf (gbs.map tokenizeColumn) = n := numRowsOf_map gbs n hne hlen
  have hi_bound : ∀ i, i < n → ∀ col ∈ gbs, i < col.length := by
    intro i hi col hcol
    rw [hlen col hcol]
    exact hi
  have hkeys : (tokKeysCanon (gbs.map tokenizeColumn)).keys =
      (distinctCompounds (gbs.map tokenizeColumn) n).map
        (materializeKey (gbs.map tokenizeColumn)) := by
    simp [tokKeysCanon, hnum]
  have hidxs : (tokKeysCanon (gbs.map tokenizeColumn)).idxs =
      (rowCompounds (gbs.map tokenizeColumn) n).map
        (fun c => posOf c (distinctCompounds (gbs.map tokenizeColumn) n)) := by
    simp [tokKeysCanon, hnum]
  have hinj : ∀ x ∈ rowCompounds (gbs.map tokenizeColumn) n,
      ∀ y ∈ rowCompounds (gbs.map tokenizeColumn) n,
      materializeKey (gbs.map tokenizeColumn) x =
        materializeKey (gbs.map tokenizeColumn) y → x = y := by
    intro x hx y hy hxy
    obtain ⟨i, hi, rfl⟩ := List.mem_map.mp hx
    obtain ⟨j, hj, rfl⟩ := List.mem_map.mp hy
    rw [List.mem_range] at hi hj
    exact materializeKey_inj gbs i j (hi_bound i hi) (hi_bound j hj) hxy
  have hinjD : ∀ x ∈ distinctCompounds (gbs.map tokenizeColumn) n,
      ∀ y ∈ distinctCompounds (gbs.map tokenizeColumn) n,
      materializeKey (gbs.map tokenizeColumn) x =
        materializeKey (gbs.map tokenizeColumn) y → x = y := by
    intro x hx y hy
    rw [distinctCompounds, mem_fsDedup] at hx hy
    exact hinj x hx y hy
  refine ⟨⟨?_, ?_, ?_, ?_⟩, ?_, ?_⟩
  · rw [hidxs]
    simp [rowCompounds]
  · intro i hi
    rw [hidxs, hkeys, canonIdxs_getD _ _ hi, List.length_map]
    exact posOf_lt_length (compound_mem_distinct _ hi)
  · intro i hi
    rw [hidxs, hkeys, canonIdxs_getD _ _ hi]
    have hmem := compound_mem_distinct (gbs.map tokenizeColumn) (n := n) hi
    have hpos := posOf_lt_length hmem
    rw [getD_eq_getElem' (by simpa using hpos), List.getElem_map]
    have : (distinctCompounds (gbs.map tokenizeColumn) n)[posOf
        (compoundKeyAt (gbs.map tokenizeColumn) i)
        (distinctCompounds (gbs.map tokenizeColumn) n)] =
        compoundKeyAt (gbs.map tokenizeColumn) i := by
      rw [← getD_eq_getElem' hpos []]
      exact getD_posOf hmem []
    rw [this]
    exact materializeKey_compound gbs i (hi_bound i hi)
  · rw [hkeys]
    exact List.Nodup.map_on hinjD (nodup_fsDedup _)
  · rw [hkeys, List.length_map]
    exact hc
  · rw [hkeys, distinctCompounds, map_fsDedup _ _ hinj, rowCompounds,
      List.map_map]
    congr 1
    apply List.map_congr_left
    intro i hi
    rw [List.mem_range] at hi
    exact materializeKey_compound gbs i (hi_bound i hi)

/-! ## Accumulator-state utilities and the block/row equivalence hypothesis -/

theorem zipWith_same_id {α β : Type} (l : List α) (sts : List β)
    (h : sts.length = l.length) : List.zipWith (fun _ s => s) l sts = sts := by
  induction l generalizing sts with
  | nil => cases sts with
      | nil => rfl
      | cons s t => simp at h
  | cons a t ih =>
      cases sts with
      | nil => simp at h
      | cons s u =>
          simp only [List.zipWith_cons_cons, List.cons.injEq, true_and]
          exact ih u (by simpa using h)

theorem zipWith_zipWith_pair {α β : Type} (f h : α → β → β) (l : List α)
    (sts : List β) :
    List.zipWith f l (List.zipWith h l sts) =
      List.zipWith (fun a s => f a (h a s)) l sts := by
  induction l generalizing sts with
  | nil => rfl
  | cons a t ih =>
      cases sts with
      | nil => rfl
      | cons s u => simp only [List.zipWith_cons_cons, ih]

theorem zipWith_congr_mem {α β γ : Type} (f f' : α → β → γ) (l : List α)
    (sts : List β) (h : ∀ a ∈ l, ∀ s, f a s = f' a s) :
    List.zipWith f l sts = List.zipWith f' l sts := by
  induction l generalizing sts with
  | nil => rfl
  | cons a t ih =>
      cases sts with
      | nil => rfl
      | cons s u =>
          simp only [List.zipWith_cons_cons, h a (by simp)]
          rw [ih u (fun a ha s => h a (by simp [ha]) s)]

theorem length_nothingRow (aggs : List (AggSpec V A)) :
    (nothingRow aggs).length = aggs.length := by
  simp [nothingRow]

theorem length_rowStepRow (aggs : List (AggSpec V A)) (r : List V) (sts : List A)
    (h : sts.length = aggs.length) : (rowStepRow aggs r sts).length = aggs.length := by
  simp [rowStepRow, h]

theorem length_foldRows (aggs : List (AggSpec V A)) (sts : List A)
    (rows : List (List V)) (h : sts.length = aggs.length) :
    (foldRows aggs sts rows).length = aggs.length := by
  induction rows generalizing sts with
  | nil => exact h
  | cons r t ih =>
      rw [foldRows, List.foldl_cons]
      exact ih _ (length_rowStepRow aggs r sts h)

/-- Folding the row-level accumulators over rows acts slotwise: the fold of the state
row equals the row of per-slot folds. -/
theorem foldRows_exchange (aggs : List (AggSpec V A)) (sts : List A)
    (rows : List (List V)) (h : sts.length = aggs.length) :
    foldRows aggs sts rows =
      List.zipWith (fun g s => rows.foldl (fun a r => g.rowAgg r a) s) aggs sts := by
  induction rows generalizing sts with
  | nil =>
      simp only [foldRows, List.foldl_nil]
      exact (zipWith_same_id aggs sts h).symm
  | cons r t ih =>
      rw [foldRows, List.foldl_cons]
      rw [show List.foldl (fun s r => rowStepRow aggs r s) (rowStepRow aggs r sts) t =
        foldRows aggs (rowStepRow aggs r sts) t from rfl]
      rw [ih _ (length_rowStepRow aggs r sts h), rowStepRow, zipWith_zipWith_pair]
      simp only [List.foldl_cons]

theorem blockStep_eq_foldRows {aggs : List (AggSpec V A)} (heq : BlockRowEquiv aggs)
    (bits : List Bool) (datas : List (List V)) (sts : List A)
    (h : sts.length = aggs.length) :
    blockStepRow aggs bits datas sts = foldRows aggs sts (selRows bits datas) := by
  rw [blockStepRow, foldRows_exchange aggs sts _ h]
  exact zipWith_congr_mem _ _ _ _ (fun g hg s => heq g hg bits datas s)

/-! ## Selection bitmaps -/

theorem mem_selIdxs (mask : List Bool) (i : Nat) :
    i ∈ selIdxs mask ↔ i < mask.length ∧ mask.getD i false = true := by
  simp [selIdxs, List.mem_filter, List.mem_range, and_comm]

theorem allFalseB_iff_selIdxs_nil (bs : List Bool) :
    allFalseB bs = true ↔ selIdxs bs = [] := by
  rw [allFalseB, List.all_eq_true, selIdxs, List.filter_eq_nil_iff]
  constructor
  · intro h i hi
    rw [List.mem_range] at hi
    rw [getD_eq_getElem' hi]
    have := h bs[i] (List.getElem_mem _)
    simp at this
    simp [this]
  · intro h b hb
    obtain ⟨i, hi, rfl⟩ := List.mem_iff_getElem.mp hb
    have := h i (List.mem_range.mpr hi)
    rw [getD_eq_getElem' hi] at this
    simpa using this

theorem length_bitAndB (b1 b2 : List Bool) :
    (bitAndB b1 b2).length = min b1.length b2.length := by
  simp [bitAndB]

theorem getD_bitAndB (b1 b2 : List Bool) (i : Nat) (h1 : i < b1.length)
    (h2 : i < b2.length) :
    (bitAndB b1 b2).getD i false = (b1.getD i false && b2.getD i false) := by
  rw [bitAndB, getD_eq_getElem' (by simp; omega), List.getElem_zipWith,
    getD_eq_getElem' h1, getD_eq_getElem' h2]

theorem length_computeBitmap (pmap : List Nat) (p : Nat) :
    (computeBitmapForPartition pmap p).length = pmap.length := by
  simp [computeBitmapForPartition]

theorem getD_computeBitmap (pmap : List Nat) (p : Nat) (i : Nat)
    (h : i < pmap.length) :
    (computeBitmapForPartition pmap p).getD i false = decide (pmap.getD i 0 = p) := by
  rw [computeBitmapForPartition, getD_eq_getElem' (by simpa using h),
    List.getElem_map, getD_eq_getElem' h]

/-- The combined accumulator bitmap for partition `p` selects exactly the input-selected
rows whose partition ordinal is `p`. -/
theorem selIdxs_accBitsFor (tk : TokenizedKeys V) (mask : List Bool) (p : Nat)
    (hlen : tk.idxs.length = mask.length) (hp : p < tk.keys.length)
    (hidx : ∀ i < mask.length, tk.idxs.getD i 0 < tk.keys.length) :
    selIdxs (accBitsFor tk mask p) =
      (selIdxs mask).filter (fun i => decide (tk.idxs.getD i 0 = p)) := by
  by_cases hmulti : 1 < tk.keys.length
  · have hpb : (computeBitmapForPartition tk.idxs p).length = mask.length := by
      rw [length_computeBitmap, hlen]
    have hablen : (accBitsFor tk mask p).length = mask.length := by
      rw [accBitsFor, if_pos hmulti, length_bitAndB, hpb, Nat.min_self]
    rw [selIdxs, hablen, selIdxs, List.filter_filter]
    apply List.filter_congr
    intro i hi
    rw [List.mem_range] at hi
    rw [accBitsFor, if_pos hmulti,
      getD_bitAndB _ _ _ (by rw [hpb]; exact hi) hi,
      getD_computeBitmap _ _ _ (by rw [hlen]; exact hi)]
  · have h1 : tk.keys.length = 1 := by omega
    have hp0 : p = 0 := by omega
    rw [accBitsFor, if_neg hmulti]
    symm
    rw [List.filter_eq_self]
    intro i hi
    have hmem := (mem_selIdxs mask i).mp hi
    have hlt := hidx i hmem.1
    have h0 : tk.idxs.getD i 0 = 0 := by omega
    show decide (tk.idxs.getD i 0 = p) = true
    rw [hp0, h0]
    simp

theorem lookup_partStep (aggs : List (AggSpec V A)) (datas : List (List V))
    (mask : List Bool) (tk : TokenizedKeys V) (p : Nat) (ht : GroupTable V A)
    (k : Key V) :
    lookupTable k (partStep aggs datas mask tk ht p) =
      if tk.keys.getD p [] = k ∧ ¬allFalseB (accBitsFor tk mask p) then
        some (blockStepRow aggs (accBitsFor tk mask p) datas
          ((lookupTable k ht).getD (nothingRow aggs)))
      else lookupTable k ht := by
  rw [partStep, execBlockLevel]
  by_cases haf : allFalseB (accBitsFor tk mask p)
  · rw [if_pos haf, if_neg (fun hc => hc.2 haf)]
  · rw [if_neg haf]
    by_cases hk : tk.keys.getD p [] = k
    · rw [if_pos ⟨hk, haf⟩]
      subst hk
      rw [lookupTable_htApply_self]
    · rw [if_neg (fun hc => hk hc.1)]
      rw [lookupTable_htApply_ne _ _ _ _ _ (fun hh => hk hh.symm)]

theorem lookup_foldPartStep (aggs : List (AggSpec V A)) (datas : List (List V))
    (mask : List Bool) (tk : TokenizedKeys V) (P : List Nat) (ht : GroupTable V A)
    (k : Key V) :
    lookupTable k (P.foldl (partStep aggs datas mask tk) ht) =
      P.foldl (fun o p =>
        if tk.keys.getD p [] = k ∧ ¬allFalseB (accBitsFor tk mask p) then
          some (blockStepRow aggs (accBitsFor tk mask p) datas
            (o.getD (nothingRow aggs)))
        else o) (lookupTable k ht) := by
  induction P generalizing ht with
  | nil => rfl
  | cons p P ih =>
      rw [List.foldl_cons, List.foldl_cons, ih, lookup_partStep]

theorem foldl_id_of {β : Type} (f : β → Nat → β) (P : List Nat)
    (h : ∀ p ∈ P, ∀ b, f b p = b) (b : β) : P.foldl f b = b := by
  induction P generalizing b with
  | nil => rfl
  | cons p P ih =>
      rw [List.foldl_cons, h p (by simp)]
      exact ih (fun q hq => h q (by simp [hq])) b

theorem foldl_single_active {β : Type} (f : β → Nat → β) (P : List Nat) (p₀ : Nat)
    (hmem : p₀ ∈ P) (hnd : P.Nodup) (hid : ∀ p ∈ P, p ≠ p₀ → ∀ b, f b p = b)
    (b : β) : P.foldl f b = f b p₀ := by
  induction P generalizing b with
  | nil => simp at hmem
  | cons q P ih =>
      rw [List.foldl_cons]
      by_cases hq : q = p₀
      · subst hq
        have hnotin : q ∉ P := (List.nodup_cons.mp hnd).1
        exact foldl_id_of f P
          (fun p hp => hid p (by simp [hp]) (fun hh => hnotin (hh ▸ hp))) (f b q)
      · rw [hid q (by simp) hq b]
        have hp₀ : p₀ ∈ P := by
          rcases List.mem_cons.mp hmem with h1 | h1
          · exact absurd h1.symm hq
          · exact h1
        exact ih hp₀ (List.nodup_cons.mp hnd).2 (fun p hp => hid p (by simp [hp])) b

theorem tableKeys_partStep_mem (aggs : List (AggSpec V A)) (datas : List (List V))
    (mask : List Bool) (tk : TokenizedKeys V) (p : Nat) (ht : GroupTable V A)
    (k : Key V) :
    k ∈ tableKeys (partStep aggs datas mask tk ht p) ↔
      k ∈ tableKeys ht ∨
        (tk.keys.getD p [] = k ∧ ¬allFalseB (accBitsFor tk mask p)) := by
  rw [partStep, execBlockLevel]
  by_cases haf : allFalseB (accBitsFor tk mask p)
  · simp [haf]
  · rw [if_neg (by simpa using haf), tableKeys_htApply]
    by_cases hin : tk.keys.getD p [] ∈ tableKeys ht
    · rw [if_pos hin]
      constructor
      · exact Or.inl
      · rintro (h1 | h1)
        · exact h1
        · exact h1.1 ▸ hin
    · rw [if_neg hin]
      simp only [tableKeys_append, List.mem_append]
      constructor
      · rintro (h1 | h1)
        · exact Or.inl h1
        · simp only [tableKeys, List.map_cons, List.map_nil, List.mem_singleton] at h1
          exact Or.inr ⟨h1.symm, by simpa using haf⟩
      · rintro (h1 | h1)
        · exact Or.inl h1
        · right
          simp only [tableKeys, List.map_cons, List.map_nil, List.mem_singleton]
          exact h1.1.symm

theorem nodup_partStep (aggs : List (AggSpec V A)) (datas : List (List V))
    (mask : List Bool) (tk : TokenizedKeys V) (p : Nat) (ht : GroupTable V A)
    (h : (tableKeys ht).Nodup) :
    (tableKeys (partStep aggs datas mask tk ht p)).Nodup := by
  rw [partStep, execBlockLevel]
  by_cases haf : allFalseB (accBitsFor tk mask p)
  · simpa [haf]
  · rw [if_neg (by simpa using haf)]
    exact nodup_tableKeys_htApply _ _ _ _ h

theorem tableKeys_foldPartStep_mem (aggs : List (AggSpec V A))
    (datas : List (List V)) (mask : List Bool) (tk : TokenizedKeys V)
    (P : List Nat) (ht : GroupTable V A) (k : Key V) :
    k ∈ tableKeys (P.foldl (partStep aggs datas mask tk) ht) ↔
      k ∈ tableKeys ht ∨
        ∃ p ∈ P, tk.keys.getD p [] = k ∧ ¬allFalseB (accBitsFor tk mask p) := by
  induction P generalizing ht with
  | nil => simp
  | cons p P ih =>
      rw [List.foldl_cons, ih, tableKeys_partStep_mem]
      constructor
      · rintro (⟨h1 | h1⟩ | ⟨q, hq, h1⟩)
        · exact Or.inl h1
        · exact Or.inr ⟨p, by simp, h1⟩
        · exact Or.inr ⟨q, by simp [hq], h1⟩
      · rintro (h1 | ⟨q, hq, h1⟩)
        · exact Or.inl (Or.inl h1)
        · rcases List.mem_cons.mp hq with h2 | h2
          · exact Or.inl (Or.inr (h2 ▸ h1))
          · exact Or.inr ⟨q, h2, h1⟩

theorem nodup_foldPartStep (aggs : List (AggSpec V A)) (datas : List (List V))
    (mask : List Bool) (tk : TokenizedKeys V) (P : List Nat) (ht : GroupTable V A)
    (h : (tableKeys ht).Nodup) :
    (tableKeys (P.foldl (partStep aggs datas mask tk) ht)).Nodup := by
  induction P generalizing ht with
  | nil => exact h
  | cons p P ih =>
      rw [List.foldl_cons]
      exact ih _ (nodup_partStep _ _ _ _ _ _ h)

theorem getD_mem {α : Type} {l : List α} {i : Nat} (h : i < l.length) (d : α) :
    l.getD i d ∈ l := by
  rw [getD_eq_getElem' h]
  exact List.getElem_mem _

theorem canonLook_append (aggs : List (AggSpec V A)) (pairs qs : List (Key V × List V))
    (k : Key V) :
    canonLook aggs (pairs ++ qs) k =
      if rowsFor k qs = [] then canonLook aggs pairs k
      else some (foldRows aggs ((canonLook aggs pairs k).getD (nothingRow aggs))
        (rowsFor k qs)) := by
  by_cases hq : rowsFor k qs = []
  · simp [canonLook, rowsFor_append, hq]
  · rw [if_neg hq]
    by_cases hp : rowsFor k pairs = []
    · simp [canonLook, rowsFor_append, hq, hp]
    · simp [canonLook, rowsFor_append, hq, hp, foldRows_append]

theorem canonLook_length (aggs : List (AggSpec V A)) (pairs : List (Key V × List V))
    (k : Key V) (v : List A) (h : canonLook aggs pairs k = some v) :
    v.length = aggs.length := by
  rw [canonLook] at h
  by_cases hr : rowsFor k pairs = []
  · simp [hr] at h
  · simp only [hr, if_false] at h
    rw [← Option.some.inj h]
    exact length_foldRows _ _ _ (length_nothingRow aggs)

theorem rowsFor_selPairs (blk : InputBlock V) (k : Key V) :
    rowsFor k (selPairs blk) =
      ((selIdxs blk.mask).filter (fun i => decide (rowAt blk.gbs i = k))).map
        (fun i => rowAt blk.datas i) := by
  simp only [rowsFor, selPairs, List.filter_map, List.map_map]
  rfl

theorem rowKey_eq_iff {gbs : List (List V)} {n : Nat} {tk : TokenizedKeys V}
    (hwf : TokWf gbs n tk) {p : Nat} (hp : p < tk.keys.length) {i : Nat}
    (hi : i < n) :
    rowAt gbs i = tk.keys.getD p [] ↔ tk.idxs.getD i 0 = p := by
  constructor
  · intro h
    apply getD_nodup_inj hwf.keys_nodup (hwf.idx_lt i hi) hp []
    rw [hwf.key_at i hi, h]
  · intro h
    rw [← hwf.key_at i hi, h]

/-- The tokenized (partition-wise) path is characterized by the same canonical
row-wise semantics as the fallback path: processing one block through
`runAccumulatorsTokenized` extends the table's characterization by the block's selected
`(key, data row)` pairs. -/
theorem tableChar_processTokenized {aggs : List (AggSpec V A)}
    (heq : BlockRowEquiv aggs) {blk : InputBlock V} {tk : TokenizedKeys V}
    (hwf : TokWf blk.gbs blk.mask.length tk)
    {pairs : List (Key V × List V)} {ht : GroupTable V A}
    (hch : TableChar aggs pairs ht) :
    TableChar aggs (pairs ++ selPairs blk)
      (processTokenized aggs blk.mask blk.datas tk ht) := by
  obtain ⟨hnd, hlook⟩ := hch
  refine ⟨nodup_foldPartStep _ _ _ _ _ _ hnd, fun k => ?_⟩
  rw [processTokenized, lookup_foldPartStep, canonLook_append]
  by_cases hk : k ∈ tk.keys
  · -- `k` is the key of exactly one partition `p₀`.
    obtain ⟨p₀, hp₀, hgd⟩ := List.mem_iff_getElem.mp hk
    rw [← getD_eq_getElem' hp₀ []] at hgd
    have huniq : ∀ p ∈ List.range tk.keys.length, p ≠ p₀ →
        tk.keys.getD p [] ≠ k := by
      intro p hp hne hcontra
      exact hne (getD_nodup_inj hwf.keys_nodup (List.mem_range.mp hp) hp₀ []
        (hcontra.trans hgd.symm))
    rw [foldl_single_active _ _ p₀ (List.mem_range.mpr hp₀) (List.nodup_range _)
      (fun p hp hne o => by rw [if_neg (fun hc => huniq p hp hne hc.1)])]
    have hfilter : (selIdxs blk.mask).filter (fun i => decide (rowAt blk.gbs i = k)) =
        (selIdxs blk.mask).filter (fun i => decide (tk.idxs.getD i 0 = p₀)) := by
      apply List.filter_congr
      intro i hi
      have hin := ((mem_selIdxs blk.mask i).mp hi).1
      rw [decide_eq_decide]
      rw [← hgd]
      exact rowKey_eq_iff hwf hp₀ hin
    have hsel : selRows (accBitsFor tk blk.mask p₀) blk.datas =
        rowsFor k (selPairs blk) := by
      rw [selRows, selIdxs_accBitsFor tk blk.mask p₀ hwf.idxs_len hp₀ hwf.idx_lt,
        rowsFor_selPairs, hfilter]
    have haf_iff : allFalseB (accBitsFor tk blk.mask p₀) = true ↔
        rowsFor k (selPairs blk) = [] := by
      rw [allFalseB_iff_selIdxs_nil,
        selIdxs_accBitsFor tk blk.mask p₀ hwf.idxs_len hp₀ hwf.idx_lt,
        rowsFor_selPairs, hfilter]
      simp
    by_cases hempty : rowsFor k (selPairs blk) = []
    · rw [if_pos hempty, if_neg (fun hc => hc.2 (haf_iff.mpr hempty)), hlook]
    · rw [if_pos ⟨hgd, fun hc => hempty (haf_iff.mp hc)⟩, if_neg hempty]
      have hsts : ((lookupTable k ht).getD (nothingRow aggs)).length = aggs.length := by
        cases hv : lookupTable k ht with
        | none => simp [length_nothingRow]
        | some v =>
            rw [hlook] at hv
            simpa using canonLook_length aggs pairs k v hv
      rw [blockStep_eq_foldRows heq _ _ _ hsts, hsel, hlook]
  · -- `k` belongs to no partition: the fold leaves its lookup alone and the block
    -- contributes no rows for it.
    have hid : ∀ p ∈ List.range tk.keys.length, tk.keys.getD p [] ≠ k := by
      intro p hp hcontra
      exact hk (hcontra ▸ getD_mem (List.mem_range.mp hp) [])
    rw [foldl_id_of _ _ (fun p hp o => by rw [if_neg (fun hc => hid p hp hc.1)])]
    have hempty : rowsFor k (selPairs blk) = [] := by
      rw [rowsFor_selPairs, List.map_eq_nil_iff, List.filter_eq_nil_iff]
      intro i hi
      have hin := ((mem_selIdxs blk.mask i).mp hi).1
      simp only [decide_eq_true_eq]
      intro hcontra
      apply hk
      rw [← hcontra, ← hwf.key_at i hin]
      exact getD_mem (hwf.idx_lt i hin) []
    rw [if_pos hempty, hlook]

/-! ## Per-block and stream-level characterization -/

theorem wfBlock_iff (blk : InputBlock V) :
    wfBlock blk = true ↔
      blk.gbs ≠ [] ∧ ∀ col ∈ blk.gbs, col.length = blk.mask.length := by
  simp [wfBlock, List.all_eq_true, List.isEmpty_iff]

theorem except_bind_ok {ε α β : Type} (a : α) (f : α → Except ε β) :
    (Except.ok a >>= f : Except ε β) = f a := rfl

/-- Processing one well-formed block through the open loop's body succeeds and extends
the canonical characterization by the block's selected pairs, whichever path is
taken. -/
theorem processBlock_char {cap : Nat} {aggs : List (AggSpec V A)}
    (heq : BlockRowEquiv aggs) {blk : InputBlock V} (hwf : wfBlock blk = true)
    {pairs : List (Key V × List V)} {ht : GroupTable V A}
    (hch : TableChar aggs pairs ht) :
    ∃ ht', processBlock cap aggs blk ht = .ok ht' ∧
      TableChar aggs (pairs ++ selPairs blk) ht' := by
  obtain ⟨hne, hlen⟩ := (wfBlock_iff blk).mp hwf
  rw [processBlock, tryTokenizeGbs_wf cap blk.mask.length blk.gbs hne hlen]
  by_cases hc : (distinctCompounds (blk.gbs.map tokenizeColumn)
      blk.mask.length).length ≤ cap
  · rw [if_pos hc, except_bind_ok]
    have htok : tryTokenizeGbs cap blk.mask.length blk.gbs =
        .ok (some (tokKeysCanon (blk.gbs.map tokenizeColumn))) := by
      rw [tryTokenizeGbs_wf cap blk.mask.length blk.gbs hne hlen, if_pos hc]
    obtain ⟨hwfTok, _, _⟩ := tryTokenizeGbs_wf_some hne hlen htok
    exact ⟨_, rfl, tableChar_processTokenized heq hwfTok hch⟩
  · rw [if_neg hc, except_bind_ok]
    refine ⟨_, rfl, ?_⟩
    rw [processRowWise_eq_canonical]
    exact tableChar_canonicalTable hch _

theorem streamPairs_cons (blk : InputBlock V) (blocks : List (InputBlock V)) :
    streamPairs (blk :: blocks) = selPairs blk ++ streamPairs blocks := rfl

theorem runStream_char {cap : Nat} {aggs : List (AggSpec V A)}
    (heq : BlockRowEquiv aggs) {blocks : List (InputBlock V)}
    (hwf : ∀ blk ∈ blocks, wfBlock blk = true) {pairs : List (Key V × List V)}
    {ht : GroupTable V A} (hch : TableChar aggs pairs ht) :
    ∃ ht', runStream cap aggs blocks ht = .ok ht' ∧
      TableChar aggs (pairs ++ streamPairs blocks) ht' := by
  induction blocks generalizing pairs ht with
  | nil => exact ⟨ht, rfl, by simpa [streamPairs] using hch⟩
  | cons blk blocks ih =>
      obtain ⟨ht1, h1, hch1⟩ := @processBlock_char V A _ _ cap aggs heq blk
        (hwf blk (by simp)) pairs ht hch
      obtain ⟨ht2, h2, hch2⟩ := ih (fun b hb => hwf b (by simp [hb])) hch1
      refine ⟨ht2, ?_, ?_⟩
      · rw [runStream, List.foldlM_cons, h1, except_bind_ok]
        exact h2
      · rw [streamPairs_cons, ← List.append_assoc]
        exact hch2

theorem runStreamRowWise_char (aggs : List (AggSpec V A))
    (blocks : List (InputBlock V)) :
    TableChar aggs (streamPairs blocks) (runStreamRowWise aggs blocks) := by
  suffices h : ∀ (blocks : List (InputBlock V)) (pairs : List (Key V × List V))
      (ht : GroupTable V A), TableChar aggs pairs ht →
      TableChar aggs (pairs ++ streamPairs blocks)
        (blocks.foldl (fun ht blk => processRowWise aggs blk ht) ht) by
    have := h blocks [] [] (tableChar_nil aggs)
    simpa [runStreamRowWise] using this
  intro blocks
  induction blocks with
  | nil => intro pairs ht hch; simpa [streamPairs] using hch
  | cons blk blocks ih =>
      intro pairs ht hch
      rw [List.foldl_cons, streamPairs_cons, ← List.append_assoc]
      apply ih
      rw [processRowWise_eq_canonical]
      exact tableChar_canonicalTable hch _

/-- Two tables characterized by the same pair stream hold the same set of groups. -/
theorem perm_of_tableChar {aggs : List (AggSpec V A)}
    {pairs : List (Key V × List V)} {t1 t2 : GroupTable V A}
    (h1 : TableChar aggs pairs t1) (h2 : TableChar aggs pairs t2) : t1.Perm t2 :=
  table_perm_of_lookup h1.1 h2.1 (fun k => (h1.2 k).trans (h2.2 k).symm)

/-! ## All-false selection masks and key-set bounds -/

theorem allFalseB_bitAndB (b1 b2 : List Bool) (h : allFalseB b2 = true) :
    allFalseB (bitAndB b1 b2) = true := by
  rw [allFalseB, List.all_eq_true] at h ⊢
  intro b hb
  rw [bitAndB] at hb
  obtain ⟨i, hi, rfl⟩ := List.mem_iff_getElem.mp hb
  have hib : i < b2.length := by
    rw [List.length_zipWith] at hi
    omega
  rw [List.getElem_zipWith]
  have h2 : b2[i] = false := by
    have := h b2[i] (List.getElem_mem hib)
    simpa using this
  simp [h2]

theorem getD_false_of_allFalse {mask : List Bool} (h : allFalseB mask = true)
    (i : Nat) : mask.getD i false = false := by
  rw [allFalseB, List.all_eq_true] at h
  by_cases hi : i < mask.length
  · rw [getD_eq_getElem' hi]
    have := h mask[i] (List.getElem_mem hi)
    simpa using this
  · rw [List.getD_eq_getElem?_getD, List.getElem?_eq_none (by omega)]
    rfl

theorem processTokenized_allFalse (aggs : List (AggSpec V A)) (mask : List Bool)
    (datas : List (List V)) (tk : TokenizedKeys V) (ht : GroupTable V A)
    (h : allFalseB mask = true) :
    processTokenized aggs mask datas tk ht = ht := by
  rw [processTokenized]
  apply foldl_id_of
  intro p _ b
  rw [partStep, execBlockLevel, if_pos]
  rw [accBitsFor]
  by_cases hm : 1 < tk.keys.length
  · rw [if_pos hm]
    exact allFalseB_bitAndB _ _ h
  · rw [if_neg hm]
    exact h

theorem processRowWise_allFalse (aggs : List (AggSpec V A)) (blk : InputBlock V)
    (ht : GroupTable V A) (h : allFalseB blk.mask = true) :
    processRowWise aggs blk ht = ht := by
  rw [processRowWise]
  apply foldl_id_of
  intro i _ b
  rw [rowWiseBody, getD_false_of_allFalse h i]
  simp

theorem processBlock_allFalse {cap : Nat} (aggs : List (AggSpec V A))
    {blk : InputBlock V} (hwf : wfBlock blk = true) (ht : GroupTable V A)
    (h : allFalseB blk.mask = true) :
    processBlock cap aggs blk ht = .ok ht := by
  obtain ⟨hne, hlen⟩ := (wfBlock_iff blk).mp hwf
  rw [processBlock, tryTokenizeGbs_wf cap blk.mask.length blk.gbs hne hlen]
  by_cases hc : (distinctCompounds (blk.gbs.map tokenizeColumn)
      blk.mask.length).length ≤ cap
  · rw [if_pos hc, except_bind_ok]
    show (pure (processTokenized aggs blk.mask blk.datas
      (tokKeysCanon (blk.gbs.map tokenizeColumn)) ht) : Except Err (GroupTable V A)) =
      Except.ok ht
    rw [processTokenized_allFalse aggs blk.mask blk.datas _ ht h]
    rfl
  · rw [if_neg hc, except_bind_ok]
    show (pure (processRowWise aggs blk ht) : Except Err (GroupTable V A)) =
      Except.ok ht
    rw [processRowWise_allFalse aggs blk ht h]
    rfl

theorem tableKeys_applyPair_mem (aggs : List (AggSpec V A)) (ht : GroupTable V A)
    (p : Key V × List V) (k : Key V) :
    k ∈ tableKeys (applyPair aggs ht p) ↔ k ∈ tableKeys ht ∨ k = p.1 := by
  rw [applyPair, tableKeys_htApply]
  by_cases hin : p.1 ∈ tableKeys ht
  · rw [if_pos hin]
    constructor
    · exact Or.inl
    · rintro (h1 | h1)
      · exact h1
      · exact h1 ▸ hin
  · rw [if_neg hin]
    simp [List.mem_append]

theorem tableKeys_canonical_mem (aggs : List (AggSpec V A))
    (ps : List (Key V × List V)) (ht : GroupTable V A) (k : Key V) :
    k ∈ tableKeys (canonicalTable aggs ps ht) ↔
      k ∈ tableKeys ht ∨ k ∈ ps.map (fun p => p.1) := by
  induction ps generalizing ht with
  | nil => simp [canonicalTable]
  | cons p ps ih =>
      rw [canonicalTable, List.foldl_cons]
      rw [show List.foldl (applyPair aggs) (applyPair aggs ht p) ps =
        canonicalTable aggs ps (applyPair aggs ht p) from rfl, ih,
        tableKeys_applyPair_mem]
      simp only [List.map_cons, List.mem_cons]
      constructor
      · rintro (⟨h1 | h1⟩ | h1)
        · exact Or.inl h1
        · exact Or.inr (Or.inl h1)
        · exact Or.inr (Or.inr h1)
      · rintro (h1 | h1 | h1)
        · exact Or.inl (Or.inl h1)
        · exact Or.inl (Or.inr h1)
        · exact Or.inr h1

/-- The keys a block's processing adds to the table all come from its selected rows,
on either path. -/
theorem processBlock_keys_bound {cap : Nat} {aggs : List (AggSpec V A)}
    {blk : InputBlock V} (hwf : wfBlock blk = true) {ht ht' : GroupTable V A}
    (h : processBlock cap aggs blk ht = .ok ht') :
    ∀ k ∈ tableKeys ht', k ∈ tableKeys ht ∨ k ∈ (selPairs blk).map (fun p => p.1) := by
  obtain ⟨hne, hlen⟩ := (wfBlock_iff blk).mp hwf
  rw [processBlock, tryTokenizeGbs_wf cap blk.mask.length blk.gbs hne hlen] at h
  by_cases hc : (distinctCompounds (blk.gbs.map tokenizeColumn)
      blk.mask.length).length ≤ cap
  · rw [if_pos hc, except_bind_ok] at h
    have htok : tryTokenizeGbs cap blk.mask.length blk.gbs =
        .ok (some (tokKeysCanon (blk.gbs.map tokenizeColumn))) := by
      rw [tryTokenizeGbs_wf cap blk.mask.length blk.gbs hne hlen, if_pos hc]
    obtain ⟨hwfTok, _, _⟩ := tryTokenizeGbs_wf_some hne hlen htok
    have hht' : ht' = processTokenized aggs blk.mask blk.datas
        (tokKeysCanon (blk.gbs.map tokenizeColumn)) ht := (Except.ok.inj h).symm
    subst hht'
    intro k hk
    rw [processTokenized] at hk
    rcases (tableKeys_foldPartStep_mem _ _ _ _ _ _ _).mp hk with h1 | ⟨p, hp, hgd, haf⟩
    · exact Or.inl h1
    · right
      rw [List.mem_range] at hp
      have hsel := selIdxs_accBitsFor _ blk.mask p hwfTok.idxs_len hp hwfTok.idx_lt
      have hne2 : selIdxs (accBitsFor (tokKeysCanon (blk.gbs.map tokenizeColumn))
          blk.mask p) ≠ [] := by
        intro hcontra
        exact haf ((allFalseB_iff_selIdxs_nil _).mpr hcontra)
      rw [hsel] at hne2
      obtain ⟨i, hi⟩ := List.exists_mem_of_ne_nil _ hne2
      have hif := List.mem_filter.mp hi
      have hin := ((mem_selIdxs blk.mask i).mp hif.1).1
      have hidx : (tokKeysCanon (blk.gbs.map tokenizeColumn)).idxs.getD i 0 = p := by
        simpa using hif.2
      rw [selPairs, List.map_map]
      refine List.mem_map.mpr ⟨i, hif.1, ?_⟩
      show rowAt blk.gbs i = k
      rw [← hgd, ← hidx]
      exact (hwfTok.key_at i hin).symm
  · rw [if_neg hc, except_bind_ok] at h
    have hht' : ht' = processRowWise aggs blk ht := (Except.ok.inj h).symm
    subst hht'
    intro k hk
    rw [processRowWise_eq_canonical] at hk
    exact (tableKeys_canonical_mem _ _ _ _).mp hk

/-! ## Spill-log bookkeeping -/

theorem lookupLog_eq_none_iff (k : Key V) (log : SpillLog V A) :
    lookupLog k log = none ↔ k ∉ logKeys log := by
  induction log with
  | nil => simp [lookupLog, logKeys]
  | cons e t ih =>
      by_cases h : e.1 = k <;>
        simp [lookupLog, logKeys, h, ih, eq_comm (a := k)]

theorem lookupLog_append (k : Key V) (l r : SpillLog V A) :
    lookupLog k (l ++ r) =
      match lookupLog k l with
      | some v => some v
      | none => lookupLog k r := by
  induction l with
  | nil => simp [lookupLog]
  | cons e t ih =>
      by_cases h : e.1 = k <;> simp [lookupLog, h, ih]

theorem lookupLog_mapAppend_self {k : Key V} {sts : List A} {log : SpillLog V A}
    {r : List (List A)} (h : lookupLog k log = some r) :
    lookupLog k (log.map (fun e => if e.1 = k then (e.1, e.2 ++ [sts]) else e)) =
      some (r ++ [sts]) := by
  induction log with
  | nil => simp [lookupLog] at h
  | cons e t ih =>
      rw [lookupLog] at h
      by_cases he : e.1 = k
      · rw [if_pos he] at h
        have hr := Option.some.inj h
        simp [List.map_cons, he, lookupLog, hr]
      · rw [if_neg he] at h
        simp [List.map_cons, he, lookupLog, ih h]

theorem lookupLog_mapAppend_ne {k k' : Key V} (sts : List A) (log : SpillLog V A)
    (hne : k' ≠ k) :
    lookupLog k' (log.map (fun e => if e.1 = k then (e.1, e.2 ++ [sts]) else e)) =
      lookupLog k' log := by
  induction log with
  | nil => rfl
  | cons e t ih =>
      by_cases he : e.1 = k
      · have hkk : k ≠ k' := fun hh => hne hh.symm
        simp [List.map_cons, he, lookupLog, hkk, ih]
      · simp only [List.map_cons, he, if_false, lookupLog, ih]

theorem lookupLog_logInsert_self (k : Key V) (sts : List A) (log : SpillLog V A) :
    lookupLog k (logInsert log k sts) = some ((lookupLog k log).getD [] ++ [sts]) := by
  rw [logInsert]
  cases h : lookupLog k log with
  | some r => simp [@lookupLog_mapAppend_self V A _ _ k sts log r h]
  | none =>
      rw [lookupLog_append, h]
      simp [lookupLog]

theorem lookupLog_logInsert_ne (k k' : Key V) (sts : List A) (log : SpillLog V A)
    (hne : k' ≠ k) :
    lookupLog k' (logInsert log k sts) = lookupLog k' log := by
  rw [logInsert]
  cases h : lookupLog k log with
  | some r => simp [lookupLog_mapAppend_ne sts log hne]
  | none =>
      rw [lookupLog_append]
      have hkk : ¬k = k' := fun hh => hne hh.symm
      cases hl : lookupLog k' log with
      | some v => simp
      | none => simp [lookupLog, hkk]

theorem logKeys_logInsert_mem (k k' : Key V) (sts : List A) (log : SpillLog V A) :
    k' ∈ logKeys (logInsert log k sts) ↔ k' ∈ logKeys log ∨ k' = k := by
  rw [logInsert]
  cases h : lookupLog k log with
  | some r =>
      have hk : k ∈ logKeys log := by
        by_contra hc
        rw [(lookupLog_eq_none_iff k log).mpr hc] at h
        exact Option.noConfusion h
      have hkeys : logKeys (log.map (fun e => if e.1 = k then (e.1, e.2 ++ [sts])
          else e)) = logKeys log := by
        simp only [logKeys, List.map_map]
        apply List.map_congr_left
        intro e _
        by_cases he : e.1 = k <;> simp [Function.comp, he]
      rw [hkeys]
      constructor
      · exact Or.inl
      · rintro (h1 | h1)
        · exact h1
        · exact h1 ▸ hk
  | none => simp [logKeys]

theorem nodup_logKeys_logInsert (k : Key V) (sts : List A) (log : SpillLog V A)
    (h : (logKeys log).Nodup) : (logKeys (logInsert log k sts)).Nodup := by
  rw [logInsert]
  cases hl : lookupLog k log with
  | some r =>
      have hkeys : logKeys (log.map (fun e => if e.1 = k then (e.1, e.2 ++ [sts])
          else e)) = logKeys log := by
        simp only [logKeys, List.map_map]
        apply List.map_congr_left
        intro e _
        by_cases he : e.1 = k <;> simp [Function.comp, he]
      rw [hkeys]
      exact h
  | none =>
      have hk : k ∉ logKeys log := (lookupLog_eq_none_iff k log).mp hl
      simp only [logKeys, List.map_append, List.map_cons, List.map_nil]
      refine List.Nodup.append h (List.nodup_singleton _) ?_
      intro a ha hb
      simp at hb
      subst hb
      exact hk ha

theorem runs_nonempty_logInsert (k : Key V) (sts : List A) (log : SpillLog V A)
    (h : ∀ e ∈ log, e.2 ≠ []) : ∀ e ∈ logInsert log k sts, e.2 ≠ [] := by
  rw [logInsert]
  cases hl : lookupLog k log with
  | some r =>
      intro e he
      obtain ⟨e0, he0, rfl⟩ := List.mem_map.mp he
      by_cases h0 : e0.1 = k <;> simp [h0] <;> exact h e0 he0
  | none =>
      intro e he
      rcases List.mem_append.mp he with h1 | h1
      · exact h e h1
      · simp at h1
        simp [h1]

theorem spillAll_cons (e : Key V × List A) (t : GroupTable V A) (log : SpillLog V A) :
    spillAll (e :: t) log = spillAll t (logInsert log e.1 e.2) := rfl

theorem lookupLog_spillAll_notin (k : Key V) (ht : GroupTable V A)
    (log : SpillLog V A) (hk : k ∉ tableKeys ht) :
    lookupLog k (spillAll ht log) = lookupLog k log := by
  induction ht generalizing log with
  | nil => rfl
  | cons e t ih =>
      have hke : k ≠ e.1 ∧ k ∉ tableKeys t := by
        simp only [tableKeys, List.map_cons, List.mem_cons] at hk
        push_neg at hk
        exact ⟨hk.1, hk.2⟩
      rw [spillAll_cons, ih (logInsert log e.1 e.2) hke.2,
        lookupLog_logInsert_ne _ _ _ _ hke.1]

theorem lookupLog_spillAll (k : Key V) (ht : GroupTable V A) (log : SpillLog V A)
    (hnd : (tableKeys ht).Nodup) :
    lookupLog k (spillAll ht log) =
      match lookupTable k ht with
      | some sts => some ((lookupLog k log).getD [] ++ [sts])
      | none => lookupLog k log := by
  induction ht generalizing log with
  | nil => rfl
  | cons e t ih =>
      have hndc : tableKeys (e :: t) = e.1 :: tableKeys t := rfl
      rw [hndc] at hnd
      have hnd1 := List.nodup_cons.mp hnd
      rw [spillAll_cons]
      by_cases hek : e.1 = k
      · subst hek
        rw [lookupLog_spillAll_notin _ _ _ hnd1.1, lookupTable_cons, if_pos rfl,
          lookupLog_logInsert_self]
      · rw [ih (logInsert log e.1 e.2) hnd1.2, lookupTable_cons, if_neg hek,
        lookupLog_logInsert_ne _ _ _ _ (fun hh => hek hh.symm)]

theorem logKeys_spillAll_mem (k : Key V) (ht : GroupTable V A) (log : SpillLog V A) :
    k ∈ logKeys (spillAll ht log) ↔ k ∈ logKeys log ∨ k ∈ tableKeys ht := by
  induction ht generalizing log with
  | nil => simp [spillAll, tableKeys]
  | cons e t ih =>
      rw [spillAll_cons, ih, logKeys_logInsert_mem]
      simp only [tableKeys, List.map_cons, List.mem_cons]
      constructor
      · rintro (⟨h1 | h1⟩ | h1)
        · exact Or.inl h1
        · exact Or.inr (Or.inl h1)
        · exact Or.inr (Or.inr h1)
      · rintro (h1 | h1 | h1)
        · exact Or.inl (Or.inl h1)
        · exact Or.inl (Or.inr h1)
        · exact Or.inr h1

theorem nodup_logKeys_spillAll (ht : GroupTable V A) (log : SpillLog V A)
    (h : (logKeys log).Nodup) : (logKeys (spillAll ht log)).Nodup := by
  induction ht generalizing log with
  | nil => exact h
  | cons e t ih => exact spillAll_cons e t log ▸ ih _ (nodup_logKeys_logInsert _ _ _ h)

theorem runs_nonempty_spillAll (ht : GroupTable V A) (log : SpillLog V A)
    (h : ∀ e ∈ log, e.2 ≠ []) : ∀ e ∈ spillAll ht log, e.2 ≠ [] := by
  induction ht generalizing log with
  | nil => exact h
  | cons e t ih =>
      exact spillAll_cons e t log ▸ ih _ (runs_nonempty_logInsert _ _ _ h)

/-! ## The merging expressions and the spill-merge reader -/

theorem mergeStep_zip_lemma (aggs : List (AggSpec V A)) (rows : List (List V))
    (hmc : ∀ g ∈ aggs, ∀ a : A,
      g.merge a (rows.foldl (fun x r => g.rowAgg r x) g.nothingVal) =
        rows.foldl (fun x r => g.rowAgg r x) a)
    (a : List A) (h : a.length = aggs.length) :
    mergeStep aggs a
      (List.zipWith (fun g s => rows.foldl (fun x r => g.rowAgg r x) s) aggs
        (nothingRow aggs)) =
      List.zipWith (fun g s => rows.foldl (fun x r => g.rowAgg r x) s) aggs a := by
  induction aggs generalizing a with
  | nil => cases a <;> rfl
  | cons g gs ih =>
      cases a with
      | nil => simp at h
      | cons s ss =>
          simp only [nothingRow, List.map_cons, List.zipWith_cons_cons, mergeStep,
            List.zip_cons_cons, List.cons.injEq]
          constructor
          · exact hmc g (by simp) s
          · exact ih (fun g' hg' => hmc g' (by simp [hg'])) ss (by simpa using h)

theorem mergeStep_foldRows {aggs : List (AggSpec V A)} (hmc : MergeIsCombine aggs)
    (a : List A) (h : a.length = aggs.length) (rows : List (List V)) :
    mergeStep aggs a (foldRows aggs (nothingRow aggs) rows) = foldRows aggs a rows := by
  rw [foldRows_exchange aggs (nothingRow aggs) rows (length_nothingRow aggs),
    foldRows_exchange aggs a rows h]
  exact mergeStep_zip_lemma aggs rows (fun g hg a' => hmc g hg a' rows) a h

theorem foldl_mergeStep_runs {aggs : List (AggSpec V A)} (hmc : MergeIsCombine aggs) :
    ∀ (rhos : List (List (List V))) (a : List A), a.length = aggs.length →
      (rhos.map (fun rows => foldRows aggs (nothingRow aggs) rows)).foldl
        (mergeStep aggs) a = foldRows aggs a (flatRows rhos) := by
  intro rhos
  induction rhos with
  | nil => intro a h; rfl
  | cons r rs ih =>
      intro a h
      rw [List.map_cons, List.foldl_cons, mergeStep_foldRows hmc a h r]
      rw [ih (foldRows aggs a r) (length_foldRows aggs a r h)]
      rw [show flatRows (r :: rs) = r ++ flatRows rs from rfl, foldRows_append]

/-- The spill-merge reader's merged value for a run of per-block partial aggregates is
the row-level fold over the concatenation of the runs' rows. -/
theorem mergeRun_runs {aggs : List (AggSpec V A)} (hmc : MergeIsCombine aggs)
    (rhos : List (List (List V))) :
    mergeRun aggs (rhos.map (fun rows => foldRows aggs (nothingRow aggs) rows)) =
      foldRows aggs (nothingRow aggs) (flatRows rhos) :=
  foldl_mergeStep_runs hmc rhos (nothingRow aggs) (length_nothingRow aggs)

theorem helper_none_iff (aggs : List (AggSpec V A)) (rs : ReaderState V A) :
    getNextSpilledHelper aggs rs = none ↔ rs.stash = none ∧ rs.recs = [] := by
  obtain ⟨stash, recs⟩ := rs
  cases stash with
  | some r =>
      obtain ⟨k, p⟩ := r
      simp [getNextSpilledHelper]
  | none => cases recs <;> simp [getNextSpilledHelper]

theorem helper_stash_eq (aggs : List (AggSpec V A)) (r : Key V × List A)
    (recs : List (Key V × List A)) :
    getNextSpilledHelper aggs ⟨none, r :: recs⟩ =
      getNextSpilledHelper aggs ⟨some r, recs⟩ := rfl


theorem readSameKey_eq (aggs : List (AggSpec V A)) (k : Key V) (st : List A)
    (recs : List (Key V × List A)) :
    readSameKey aggs k st recs =
      (((recs.takeWhile (fun r => r.1 = k)).map (fun r => r.2)).foldl
          (mergeStep aggs) st,
        (recs.dropWhile (fun r => r.1 = k)).head?,
        (recs.dropWhile (fun r => r.1 = k)).tail) := by
  induction recs generalizing st with
  | nil => rfl
  | cons r rs ih =>
      by_cases h : r.1 = k
      · rw [readSameKey, if_pos h, ih]
        simp [h]
      · rw [readSameKey, if_neg h]
        simp [h]

theorem readSameKey_map_self (aggs : List (AggSpec V A)) (k : Key V)
    (ps : List (List A)) (st : List A) (rest : List (Key V × List A)) :
    readSameKey aggs k st (ps.map (fun s => (k, s)) ++ rest) =
      readSameKey aggs k (ps.foldl (mergeStep aggs) st) rest := by
  induction ps generalizing st with
  | nil => rfl
  | cons p ps ih =>
      simp only [List.map_cons, List.cons_append, readSameKey, if_pos rfl,
        List.foldl_cons]
      exact ih (mergeStep aggs st p)

theorem drainFuel_empty (aggs : List (AggSpec V A)) (fuel : Nat) :
    drainGroupsFuel aggs fuel ⟨none, []⟩ = [] := by
  cases fuel <;> simp [drainGroupsFuel, getNextSpilledHelper]

theorem flattenLog_cons (e : Key V × List (List A)) (rest : SpillLog V A) :
    flattenLog (e :: rest) = e.2.map (fun sts => (e.1, sts)) ++ flattenLog rest := rfl

theorem readSameKey_map_nil (aggs : List (AggSpec V A)) (k : Key V)
    (ps : List (List A)) (st : List A) :
    readSameKey aggs k st (ps.map (fun s => (k, s))) =
      (ps.foldl (mergeStep aggs) st, none, []) := by
  have := readSameKey_map_self aggs k ps st []
  simpa [readSameKey] using this

theorem helper_stash_run_nil (aggs : List (AggSpec V A)) (k : Key V) (p : List A)
    (ps : List (List A)) :
    getNextSpilledHelper aggs ⟨some (k, p), ps.map (fun s => (k, s))⟩ =
      some ((k, ps.foldl (mergeStep aggs) (mergeStep aggs (nothingRow aggs) p)),
        ⟨none, []⟩) := by
  simp only [getNextSpilledHelper, readSameKey_map_nil]

theorem helper_stash_run_cons (aggs : List (AggSpec V A)) (k : Key V) (p : List A)
    (ps : List (List A)) (r : Key V × List A) (rs : List (Key V × List A))
    (hne : r.1 ≠ k) :
    getNextSpilledHelper aggs ⟨some (k, p), ps.map (fun s => (k, s)) ++ r :: rs⟩ =
      some ((k, ps.foldl (mergeStep aggs) (mergeStep aggs (nothingRow aggs) p)),
        ⟨some r, rs⟩) := by
  simp only [getNextSpilledHelper, readSameKey_map_self, readSameKey, if_neg hne]

theorem drainFuel_stash_eq (aggs : List (AggSpec V A)) (fuel : Nat)
    (r : Key V × List A) (recs : List (Key V × List A)) :
    drainGroupsFuel aggs (fuel + 1) ⟨none, r :: recs⟩ =
      drainGroupsFuel aggs (fuel + 1) ⟨some r, recs⟩ := by
  rw [drainGroupsFuel, drainGroupsFuel, helper_stash_eq]

theorem drainFuel_step (aggs : List (AggSpec V A)) (f : Nat) (rs : ReaderState V A)
    (g : Key V × List A) (rs' : ReaderState V A)
    (h : getNextSpilledHelper aggs rs = some (g, rs')) :
    drainGroupsFuel aggs (f + 1) rs = g :: drainGroupsFuel aggs f rs' := by
  rw [drainGroupsFuel, h]

/-- Draining from a stashed record: the reader emits the stashed record's key merged
with the rest of its run, then each further log entry as one merged group. -/
theorem drainFuel_structured (aggs : List (AggSpec V A)) (log : SpillLog V A) :
    ∀ (k : Key V) (p : List A) (ps : List (List A)) (fuel : Nat),
      ps.length + (flattenLog log).length + 1 ≤ fuel →
      k ∉ logKeys log → (logKeys log).Nodup → (∀ e ∈ log, e.2 ≠ []) →
      drainGroupsFuel aggs fuel
        ⟨some (k, p), ps.map (fun s => (k, s)) ++ flattenLog log⟩ =
        (k, ps.foldl (mergeStep aggs) (mergeStep aggs (nothingRow aggs) p)) ::
          log.map (fun e => (e.1, mergeRun aggs e.2)) := by
  induction log with
  | nil =>
      intro k p ps fuel hfuel hk hnd hne
      obtain ⟨f, rfl⟩ : ∃ f, fuel = f + 1 := ⟨fuel - 1, by omega⟩
      rw [show flattenLog ([] : SpillLog V A) = [] from rfl, List.append_nil]
      rw [drainFuel_step aggs f _ _ _ (helper_stash_run_nil aggs k p ps)]
      rw [drainFuel_empty]
      rfl
  | cons e rest ih =>
      intro k p ps fuel hfuel hk hnd hne
      have hne2 : e.2 ≠ [] := hne e (by simp)
      obtain ⟨q, qs, he2⟩ : ∃ q qs, e.2 = q :: qs := by
        cases h2 : e.2 with
        | nil => exact absurd h2 hne2
        | cons q qs => exact ⟨q, qs, rfl⟩
      have hkne : e.1 ≠ k := by
        intro hcontra
        exact hk (by simp [logKeys, hcontra.symm])
      obtain ⟨f, rfl⟩ : ∃ f, fuel = f + 1 := ⟨fuel - 1, by omega⟩
      have hflat : flattenLog (e :: rest) =
          (e.1, q) :: (qs.map (fun s => (e.1, s)) ++ flattenLog rest) := by
        rw [flattenLog_cons, he2, List.map_cons, List.cons_append]
      rw [hflat]
      rw [drainFuel_step aggs f _ _ _ (helper_stash_run_cons aggs k p ps (e.1, q)
        (qs.map (fun s => (e.1, s)) ++ flattenLog rest) hkne)]
      have hnd1 : e.1 ∉ logKeys rest ∧ (logKeys rest).Nodup := by
        simp only [logKeys, List.map_cons, List.nodup_cons] at hnd
        exact hnd
      have hrec := ih e.1 q qs f
        (by
          rw [hflat] at hfuel
          simp only [List.length_cons, List.length_append, List.length_map] at hfuel ⊢
          omega)
        hnd1.1 hnd1.2 (fun e' he' => hne e' (by simp [he']))
      rw [hrec, List.map_cons]
      rw [show mergeRun aggs e.2 = qs.foldl (mergeStep aggs)
        (mergeStep aggs (nothingRow aggs) q) from by rw [he2]; rfl]

/-- Draining the cursor view of a well-formed spill log yields exactly one merged group
per log entry, in log order. -/
theorem drainGroups_structured (aggs : List (AggSpec V A)) (log : SpillLog V A)
    (hnd : (logKeys log).Nodup) (hne : ∀ e ∈ log, e.2 ≠ []) :
    drainGroups aggs ⟨none, flattenLog log⟩ =
      log.map (fun e => (e.1, mergeRun aggs e.2)) := by
  cases log with
  | nil => simp [drainGroups, drainFuel_empty, flattenLog]
  | cons e rest =>
      have hne2 : e.2 ≠ [] := hne e (by simp)
      obtain ⟨q, qs, he2⟩ : ∃ q qs, e.2 = q :: qs := by
        cases h2 : e.2 with
        | nil => exact absurd h2 hne2
        | cons q qs => exact ⟨q, qs, rfl⟩
      have hflat : flattenLog (e :: rest) =
          (e.1, q) :: (qs.map (fun s => (e.1, s)) ++ flattenLog rest) := by
        rw [flattenLog_cons, he2, List.map_cons, List.cons_append]
      rw [drainGroups, hflat]
      rw [show ((e.1, q) :: (qs.map (fun s => ((e.1 : Key V), s)) ++
          flattenLog rest)).length + 2 =
        ((qs.map (fun s => ((e.1 : Key V), s)) ++ flattenLog rest).length + 2) + 1
        from by simp]
      rw [drainFuel_stash_eq]
      have hnd1 : e.1 ∉ logKeys rest ∧ (logKeys rest).Nodup := by
        simp only [logKeys, List.map_cons, List.nodup_cons] at hnd
        exact hnd
      have hdr := drainFuel_structured aggs rest e.1 q qs
        ((qs.map (fun s => ((e.1 : Key V), s)) ++ flattenLog rest).length + 2 + 1)
        (by simp only [List.length_append, List.length_map]; omega)
        hnd1.1 hnd1.2 (fun e' he' => hne e' (by simp [he']))
      rw [hdr, List.map_cons]
      rw [show mergeRun aggs e.2 = qs.foldl (mergeStep aggs)
        (mergeStep aggs (nothingRow aggs) q) from by rw [he2]; rfl]

/-! ## Open-loop characterizations -/

theorem openLoop_cons (cap : Nat) (aggs : List (AggSpec V A)) (force : Bool)
    (budget : GroupTable V A → Bool) (blk : InputBlock V)
    (blocks : List (InputBlock V)) (st0 : OpenState V A) (ht' : GroupTable V A)
    (h : processBlock cap aggs blk st0.ht = .ok ht') :
    openLoop cap aggs force budget (blk :: blocks) st0 =
      openLoop cap aggs force budget blocks
        (afterBlock force budget ⟨ht', st0.log, st0.spilled⟩) := by
  rw [openLoop, List.foldlM_cons]
  rw [show (do
      let ht' ← processBlock cap aggs blk st0.ht
      pure (afterBlock force budget ⟨ht', st0.log, st0.spilled⟩) :
        Except Err (OpenState V A)) =
    pure (afterBlock force budget ⟨ht', st0.log, st0.spilled⟩) from by
      rw [h]; rfl]
  rfl

theorem runStream_cons_ok {cap : Nat} {aggs : List (AggSpec V A)}
    {blk : InputBlock V} (blocks : List (InputBlock V)) {ht ht' : GroupTable V A}
    (h : processBlock cap aggs blk ht = .ok ht') :
    runStream cap aggs (blk :: blocks) ht = runStream cap aggs blocks ht' := by
  rw [runStream, runStream, List.foldlM_cons, h]
  rfl

theorem runStream_cons_error {cap : Nat} {aggs : List (AggSpec V A)}
    {blk : InputBlock V} (blocks : List (InputBlock V)) {ht : GroupTable V A}
    {e : Err} (h : processBlock cap aggs blk ht = .error e) :
    runStream cap aggs (blk :: blocks) ht = .error e := by
  rw [runStream, List.foldlM_cons, h]
  rfl

theorem openLoop_cons_error (cap : Nat) (aggs : List (AggSpec V A)) (force : Bool)
    (budget : GroupTable V A → Bool) (blk : InputBlock V)
    (blocks : List (InputBlock V)) (st0 : OpenState V A) {e : Err}
    (h : processBlock cap aggs blk st0.ht = .error e) :
    openLoop cap aggs force budget (blk :: blocks) st0 = .error e := by
  rw [openLoop, List.foldlM_cons]
  rw [show (do
      let ht' ← processBlock cap aggs blk st0.ht
      pure (afterBlock force budget ⟨ht', st0.log, st0.spilled⟩) :
        Except Err (OpenState V A)) = .error e from by rw [h]; rfl]
  rfl

theorem openLoop_noSpill (cap : Nat) (aggs : List (AggSpec V A))
    (blocks : List (InputBlock V)) (st0 : OpenState V A) :
    openLoop cap aggs false (fun _ => false) blocks st0 =
      (runStream cap aggs blocks st0.ht).map
        (fun ht => ⟨ht, st0.log, st0.spilled⟩) := by
  induction blocks generalizing st0 with
  | nil => rfl
  | cons blk blocks ih =>
      cases hpb : processBlock cap aggs blk st0.ht with
      | error e =>
          rw [openLoop_cons_error cap aggs false (fun _ => false) blk blocks st0 hpb,
            runStream_cons_error blocks hpb]
          rfl
      | ok ht' =>
          rw [openLoop_cons cap aggs false (fun _ => false) blk blocks st0 ht' hpb]
          have hafter : afterBlock false (fun _ => false)
              (⟨ht', st0.log, st0.spilled⟩ : OpenState V A) =
              ⟨ht', st0.log, st0.spilled⟩ := by
            rw [afterBlock, if_neg]
            simp
          rw [hafter, ih ⟨ht', st0.log, st0.spilled⟩, runStream_cons_ok blocks hpb]

theorem blockRuns_cons (aggs : List (AggSpec V A)) (blk : InputBlock V)
    (blocks : List (InputBlock V)) (k : Key V) :
    blockRuns aggs (blk :: blocks) k =
      match canonLook aggs (selPairs blk) k with
      | some sts => sts :: blockRuns aggs blocks k
      | none => blockRuns aggs blocks k := by
  rw [blockRuns, List.filterMap_cons]
  cases canonLook aggs (selPairs blk) k <;> rfl

/-- Running the open loop in forced-spilling mode keeps the table empty after every
block and accumulates, per key, exactly the per-block partial aggregates in the log. -/
theorem openLoop_force {cap : Nat} {aggs : List (AggSpec V A)}
    (heq : BlockRowEquiv aggs) (budget : GroupTable V A → Bool) :
    ∀ (blocks : List (InputBlock V)), (∀ blk ∈ blocks, wfBlock blk = true) →
    ∀ (log0 : SpillLog V A) (sp0 : Bool), (logKeys log0).Nodup →
      (∀ e ∈ log0, e.2 ≠ []) →
    ∃ st, openLoop cap aggs true budget blocks ⟨[], log0, sp0⟩ = .ok st ∧
      st.ht = [] ∧ (logKeys st.log).Nodup ∧ (∀ e ∈ st.log, e.2 ≠ []) ∧
      (∀ k, (lookupLog k st.log).getD [] =
        (lookupLog k log0).getD [] ++ blockRuns aggs blocks k) ∧
      (∀ k, k ∈ logKeys st.log ↔ k ∈ logKeys log0 ∨ blockRuns aggs blocks k ≠ []) ∧
      (st.spilled = false → st.log = log0 ∧ sp0 = false) := by
  intro blocks
  induction blocks with
  | nil =>
      intro hwf log0 sp0 hnd hne
      refine ⟨⟨[], log0, sp0⟩, rfl, rfl, hnd, hne, ?_, ?_, ?_⟩
      · intro k; simp [blockRuns]
      · intro k; simp [blockRuns]
      · intro hsp; exact ⟨rfl, hsp⟩
  | cons blk blocks ih =>
      intro hwf log0 sp0 hnd hne
      obtain ⟨ht', hpb, hch⟩ := @processBlock_char V A _ _ cap aggs heq blk
        (hwf blk (by simp)) [] [] (tableChar_nil aggs)
      rw [List.nil_append] at hch
      rw [show openLoop cap aggs true budget (blk :: blocks) ⟨[], log0, sp0⟩ =
        openLoop cap aggs true budget blocks
          (afterBlock true budget ⟨ht', log0, sp0⟩) from
        openLoop_cons cap aggs true budget blk blocks ⟨[], log0, sp0⟩ ht' hpb]
      by_cases hht : ht'.isEmpty
      · have hafter : afterBlock true budget (⟨ht', log0, sp0⟩ : OpenState V A) =
            ⟨[], log0, sp0⟩ := by
          rw [afterBlock, if_neg (by simp [hht])]
          have : ht' = [] := by simpa [List.isEmpty_iff] using hht
          rw [this]
        have hnone : ∀ k, canonLook aggs (selPairs blk) k = none := by
          intro k
          have := hch.2 k
          have hh : ht' = [] := by simpa [List.isEmpty_iff] using hht
          rw [hh] at this
          exact this.symm.trans rfl
        obtain ⟨st, hloop, h1, h2, h3, h4, h5, h6⟩ :=
          ih (fun b hb => hwf b (by simp [hb])) log0 sp0 hnd hne
        rw [hafter]
        refine ⟨st, hloop, h1, h2, h3, ?_, ?_, h6⟩
        · intro k; rw [h4, blockRuns_cons, hnone k]
        · intro k; rw [h5, blockRuns_cons, hnone k]
      · have hafter : afterBlock true budget (⟨ht', log0, sp0⟩ : OpenState V A) =
            ⟨[], spillAll ht' log0, true⟩ := by
          rw [afterBlock, if_pos (by simp [hht])]
        rw [hafter]
        have hnd' : (logKeys (spillAll ht' log0)).Nodup :=
          nodup_logKeys_spillAll _ _ hnd
        have hne' : ∀ e ∈ spillAll ht' log0, e.2 ≠ [] :=
          runs_nonempty_spillAll _ _ hne
        obtain ⟨st, hloop, h1, h2, h3, h4, h5, h6⟩ :=
          ih (fun b hb => hwf b (by simp [hb])) (spillAll ht' log0) true hnd' hne'
        refine ⟨st, hloop, h1, h2, h3, ?_, ?_, ?_⟩
        · intro k
          rw [h4 k, lookupLog_spillAll k ht' log0 hch.1, hch.2 k, blockRuns_cons]
          cases hcl : canonLook aggs (selPairs blk) k with
          | some sts => simp
          | none => simp
        · intro k
          rw [h5 k, logKeys_spillAll_mem, blockRuns_cons]
          have hmemht : k ∈ tableKeys ht' ↔
              canonLook aggs (selPairs blk) k ≠ none := by
            rw [← lookupTable_isSome_iff, hch.2 k]
            cases canonLook aggs (selPairs blk) k <;> simp
          cases hcl : canonLook aggs (selPairs blk) k with
          | some sts =>
              have hmem2 : k ∈ tableKeys ht' := hmemht.mpr (by rw [hcl]; simp)
              constructor
              · intro _
                right
                simp
              · intro _
                left
                exact Or.inr hmem2
          | none =>
              have hmem2 : k ∉ tableKeys ht' := fun hc => (hmemht.mp hc) hcl
              constructor
              · rintro ((h7 | h7) | h7)
                · exact Or.inl h7
                · exact absurd h7 hmem2
                · exact Or.inr h7
              · rintro (h7 | h7)
                · exact Or.inl (Or.inl h7)
                · exact Or.inr h7
        · intro hsp
          obtain ⟨_, hcontra⟩ := h6 hsp
          exact absurd hcontra (by simp)

theorem lookupTable_map_log (f : List (List A) → List A) (log : SpillLog V A)
    (k : Key V) :
    lookupTable k (log.map (fun e => (e.1, f e.2))) = (lookupLog k log).map f := by
  induction log with
  | nil => rfl
  | cons e t ih =>
      by_cases h : e.1 = k <;> simp [lookupTable, lookupLog, h, ih]

theorem tableKeys_map_log (f : List (List A) → List A) (log : SpillLog V A) :
    tableKeys (log.map (fun e => (e.1, f e.2))) = logKeys log := by
  simp [tableKeys, logKeys]

theorem blockRuns_eq_map (aggs : List (AggSpec V A)) (blocks : List (InputBlock V))
    (k : Key V) :
    blockRuns aggs blocks k =
      ((blocks.map (fun blk => rowsFor k (selPairs blk))).filter
        (fun r => ¬r = [])).map (fun rows => foldRows aggs (nothingRow aggs) rows) := by
  induction blocks with
  | nil => rfl
  | cons blk blocks ih =>
      rw [blockRuns_cons, ih, canonLook]
      by_cases hr : rowsFor k (selPairs blk) = []
      · rw [if_pos hr]
        simp [List.filter_cons, hr]
      · rw [if_neg hr]
        simp [List.filter_cons, hr]

theorem flatRows_filter_ne (rhos : List (List (List V))) :
    flatRows (rhos.filter (fun r => ¬r = [])) = flatRows rhos := by
  induction rhos with
  | nil => rfl
  | cons r rs ih =>
      by_cases hr : r = []
      · subst hr
        simp only [List.filter_cons]
        rw [if_neg (by simp)]
        rw [ih]
        rfl
      · simp only [List.filter_cons]
        rw [if_pos (by simpa using hr)]
        rw [show flatRows (r :: rs.filter (fun r => ¬r = [])) =
          r ++ flatRows (rs.filter (fun r => ¬r = [])) from rfl, ih]
        rfl

theorem flatRows_blocksRows (blocks : List (InputBlock V)) (k : Key V) :
    flatRows (blocks.map (fun blk => rowsFor k (selPairs blk))) =
      rowsFor k (streamPairs blocks) := by
  induction blocks with
  | nil => rfl
  | cons blk blocks ih =>
      rw [List.map_cons, streamPairs_cons, rowsFor_append,
        show flatRows (rowsFor k (selPairs blk) ::
          blocks.map (fun blk => rowsFor k (selPairs blk))) =
          rowsFor k (selPairs blk) ++
            flatRows (blocks.map (fun blk => rowsFor k (selPairs blk))) from rfl, ih]

theorem flatRows_nil_iff (rhos : List (List (List V)))
    (h : ∀ r ∈ rhos, r ≠ []) : flatRows rhos = [] ↔ rhos = [] := by
  cases rhos with
  | nil => simp [flatRows]
  | cons r rs =>
      have hr : r ≠ [] := h r (by simp)
      constructor
      · intro hc
        rw [show flatRows (r :: rs) = r ++ flatRows rs from rfl] at hc
        exact absurd (List.append_eq_nil.mp hc).1 hr
      · intro hc
        exact absurd hc (by simp)

theorem blockRuns_nil_iff (aggs : List (AggSpec V A))
    (blocks : List (InputBlock V)) (k : Key V) :
    blockRuns aggs blocks k = [] ↔ rowsFor k (streamPairs blocks) = [] := by
  rw [blockRuns_eq_map, ← flatRows_blocksRows, ← flatRows_filter_ne]
  have hall : ∀ r ∈ (blocks.map (fun blk => rowsFor k (selPairs blk))).filter
      (fun r => ¬r = []), r ≠ [] := by
    intro r hr
    have := (List.mem_filter.mp hr).2
    simpa using this
  rw [flatRows_nil_iff _ hall]
  simp

theorem mergeRun_blockRuns {aggs : List (AggSpec V A)} (hmc : MergeIsCombine aggs)
    (blocks : List (InputBlock V)) (k : Key V) :
    mergeRun aggs (blockRuns aggs blocks k) =
      foldRows aggs (nothingRow aggs) (rowsFor k (streamPairs blocks)) := by
  rw [blockRuns_eq_map, mergeRun_runs hmc, flatRows_filter_ne, flatRows_blocksRows]

theorem openStage_eq_of_loop {cap : Nat} {aggs : List (AggSpec V A)} {force : Bool}
    {budget : GroupTable V A → Bool} {blocks : List (InputBlock V)}
    {st : OpenState V A}
    (h : openLoop cap aggs force budget blocks ⟨[], [], false⟩ = .ok st) :
    openStage cap aggs force budget blocks = .ok (finalizeOpen st) := by
  rw [openStage, h]
  rfl

theorem finalizeOpen_empty {st : OpenState V A} (h : st.ht = []) :
    finalizeOpen st = st := by
  rw [finalizeOpen, if_neg]
  simp [h]

theorem finalizeOpen_notSpilled {st : OpenState V A} (h : st.spilled = false) :
    finalizeOpen st = st := by
  rw [finalizeOpen, if_neg]
  simp [h]

/-! ## Output block shapes -/

theorem collectGroups_length_le (aggs : List (AggSpec V A)) :
    ∀ (n : Nat) (rs : ReaderState V A), (collectGroups aggs n rs).1.length ≤ n := by
  intro n
  induction n with
  | zero => intro rs; simp [collectGroups]
  | succ n ih =>
      intro rs
      rw [collectGroups]
      cases h : getNextSpilledHelper aggs rs with
      | none => simp
      | some gr =>
          simp only [List.length_cons]
          exact Nat.succ_le_succ (ih gr.2)

theorem getNextSpilledBlock_shape {aggs : List (AggSpec V A)} {kOut : Nat}
    {rs rs' : ReaderState V A} {b : OutBlock V A}
    (h : getNextSpilledBlock aggs kOut rs = some (b, rs')) :
    b.rows.length ≤ kOut ∧ b.bitmap = List.replicate b.rows.length true := by
  rw [getNextSpilledBlock] at h
  by_cases he : (collectGroups aggs kOut rs).1.isEmpty
  · rw [if_pos he] at h
    exact absurd h (by simp)
  · rw [if_neg he] at h
    have hb := (Prod.mk.inj (Option.some.inj h)).1
    rw [← hb]
    exact ⟨collectGroups_length_le aggs kOut rs, rfl⟩

theorem drainSpilledBlocks_shape (aggs : List (AggSpec V A)) (kOut : Nat) :
    ∀ (fuel : Nat) (rs : ReaderState V A), ∀ b ∈ drainSpilledBlocksFuel aggs kOut fuel rs,
      b.rows.length ≤ kOut ∧ b.bitmap = List.replicate b.rows.length true := by
  intro fuel
  induction fuel with
  | zero => intro rs b hb; simp [drainSpilledBlocksFuel] at hb
  | succ f ih =>
      intro rs b hb
      rw [drainSpilledBlocksFuel] at hb
      cases h : getNextSpilledBlock aggs kOut rs with
      | none => rw [h] at hb; simp at hb
      | some br =>
          rw [h] at hb
          rcases List.mem_cons.mp hb with h1 | h1
          · subst h1
            exact getNextSpilledBlock_shape (by rw [h])
          · exact ih br.2 b h1

theorem chunkList_mem_length_aux {α : Type} (k : Nat) :
    ∀ (n : Nat) (l : List α), l.length ≤ n → ∀ c ∈ chunkList k l, c.length ≤ k := by
  intro n
  induction n with
  | zero =>
      intro l hl c hc
      have hnil : l = [] := by
        cases l with
        | nil => rfl
        | cons a t => simp at hl
      subst hnil
      rw [chunkList] at hc
      simp at hc
  | succ n ih =>
      intro l hl c hc
      rw [chunkList] at hc
      by_cases h : l.isEmpty ∨ k = 0
      · rw [dif_pos h] at hc
        simp at hc
      · rw [dif_neg h] at hc
        rcases List.mem_cons.mp hc with h1 | h1
        · subst h1
          simpa using Nat.min_le_left k l.length
        · apply ih (l.drop k) _ c h1
          push_neg at h
          have hlp : 0 < l.length := by
            cases l with
            | nil => exact absurd (by rfl : ([] : List α).isEmpty = true) h.1
            | cons a t => simp
          rw [List.length_drop]
          omega

theorem chunkList_mem_length {α : Type} (k : Nat) (l : List α) :
    ∀ c ∈ chunkList k l, c.length ≤ k :=
  chunkList_mem_length_aux k l.length l le_rfl

theorem drainInMemory_shape (kOut : Nat) (ht : GroupTable V A) :
    ∀ b ∈ drainInMemory kOut ht,
      b.rows.length ≤ kOut ∧ b.bitmap = List.replicate b.rows.length true := by
  intro b hb
  obtain ⟨c, hc, rfl⟩ := List.mem_map.mp hb
  exact ⟨chunkList_mem_length kOut ht c hc, rfl⟩

/-! ## Relating inputs that differ only on deselected rows -/

theorem selPairs_eq_of_maskedAgree {b1 b2 : InputBlock V} (h : MaskedAgree b1 b2) :
    selPairs b1 = selPairs b2 := by
  obtain ⟨hmask, hrows⟩ := h
  rw [selPairs, selPairs, ← hmask]
  apply List.map_congr_left
  intro i hi
  have hsel := ((mem_selIdxs b1.mask i).mp hi).2
  obtain ⟨hg, hd⟩ := hrows i hsel
  rw [hg, hd]

theorem streamPairs_eq_of_maskedAgree {blocks1 blocks2 : List (InputBlock V)}
    (h : List.Forall₂ MaskedAgree blocks1 blocks2) :
    streamPairs blocks1 = streamPairs blocks2 := by
  induction h with
  | nil => rfl
  | cons hab hrest ih =>
      rw [streamPairs_cons, streamPairs_cons, selPairs_eq_of_maskedAgree hab, ih]

/-! ## The claims -/

/-- Claim C1: for every input stream of blocks, assuming each accumulator's block-level
and row-level expressions are semantically equivalent reductions over the same logical
rows, and every block tokenizes successfully (so the tokenized, partition-wise path is
taken for each), the set of `(group key, final accumulator state)` pairs produced by
the open loop equals the set produced by processing every block through the row-wise
fallback path. -/
theorem claim_C1 {cap : Nat} {aggs : List (AggSpec V A)}
    {blocks : List (InputBlock V)} (heq : BlockRowEquiv aggs)
    (hwf : ∀ blk ∈ blocks, wfBlock blk = true)
    (htok : ∀ blk ∈ blocks, tokenizesOk cap blk = true) :
    ∃ ht, runStream cap aggs blocks [] = .ok ht ∧
      ht.Perm (runStreamRowWise aggs blocks) := by
  obtain ⟨ht, hrun, hch⟩ := runStream_char heq hwf (tableChar_nil aggs)
  rw [List.nil_append] at hch
  exact ⟨ht, hrun, perm_of_tableChar hch (runStreamRowWise_char aggs blocks)⟩

/-- Claim C2: for every input stream, if the merging expressions are the true
associative combinations of their accumulators (and block/row accumulators are
equivalent), forcing a spill after every block — so that draining goes through the
spill-merge reader — produces the same set of `(group key, final accumulator state)`
pairs as running with spilling disabled, which drains the in-memory table directly. -/
theorem claim_C2 {cap : Nat} {aggs : List (AggSpec V A)}
    {budget : GroupTable V A → Bool} {blocks : List (InputBlock V)}
    (heq : BlockRowEquiv aggs) (hmc : MergeIsCombine aggs)
    (hwf : ∀ blk ∈ blocks, wfBlock blk = true) :
    ∃ stF stN,
      openStage cap aggs true budget blocks = .ok stF ∧
      openStage cap aggs false (fun _ => false) blocks = .ok stN ∧
      (finalPairs aggs stF).Perm (finalPairs aggs stN) := by
  obtain ⟨st, hloop, hht, hnd, hne, hrun, hmem, hnospill⟩ :=
    openLoop_force heq budget blocks hwf [] false (by simp [logKeys]) (by simp)
  have hFstage : openStage cap aggs true budget blocks = .ok (finalizeOpen st) :=
    openStage_eq_of_loop hloop
  have hFfin : finalizeOpen st = st := finalizeOpen_empty hht
  obtain ⟨htN, hrunN, hchN⟩ := runStream_char heq hwf (tableChar_nil aggs)
  rw [List.nil_append] at hchN
  have hNloop : openLoop cap aggs false (fun _ => false) blocks ⟨[], [], false⟩ =
      .ok ⟨htN, [], false⟩ := by
    rw [openLoop_noSpill cap aggs blocks ⟨[], [], false⟩]
    show (runStream cap aggs blocks []).map
      (fun ht => (⟨ht, [], false⟩ : OpenState V A)) = .ok ⟨htN, [], false⟩
    rw [hrunN]
    rfl
  have hNstage : openStage cap aggs false (fun _ => false) blocks =
      .ok (finalizeOpen ⟨htN, [], false⟩) := openStage_eq_of_loop hNloop
  have hNfin : finalizeOpen (⟨htN, [], false⟩ : OpenState V A) = ⟨htN, [], false⟩ :=
    finalizeOpen_notSpilled rfl
  refine ⟨st, ⟨htN, [], false⟩, by rw [hFstage, hFfin], by rw [hNstage, hNfin], ?_⟩
  have hrun' : ∀ k, (lookupLog k st.log).getD [] = blockRuns aggs blocks k := by
    intro k
    have := hrun k
    simpa [lookupLog] using this
  have hmem' : ∀ k, k ∈ logKeys st.log ↔ blockRuns aggs blocks k ≠ [] := by
    intro k
    have := hmem k
    simpa [logKeys] using this
  have hfpN : finalPairs aggs (⟨htN, [], false⟩ : OpenState V A) = htN := by
    simp [finalPairs]
  cases hsp : st.spilled with
  | false =>
      obtain ⟨hlog, _⟩ := hnospill hsp
      have hruns0 : ∀ k, blockRuns aggs blocks k = [] := by
        intro k
        by_contra hc
        have := (hmem' k).mpr hc
        rw [hlog] at this
        simp [logKeys] at this
      have hNnil : htN = [] := by
        have hkeys : ∀ k, k ∉ tableKeys htN := by
          intro k hk
          have hsome := (lookupTable_isSome_iff k htN).mpr hk
          rw [hchN.2 k, canonLook,
            if_pos ((blockRuns_nil_iff aggs blocks k).mp (hruns0 k))] at hsome
          simp at hsome
        cases htN with
        | nil => rfl
        | cons e t =>
            exact absurd (by simp [tableKeys] : e.1 ∈ tableKeys (e :: t))
              (hkeys e.1)
      have hfpF : finalPairs aggs st = [] := by
        simp [finalPairs, hsp, hht]
      rw [hfpF, hfpN, hNnil]
  | true =>
      have hfpF : finalPairs aggs st =
          st.log.map (fun e => (e.1, mergeRun aggs e.2)) := by
        rw [finalPairs, if_pos (by rw [hsp])]
        exact drainGroups_structured aggs st.log hnd hne
      rw [hfpF, hfpN]
      apply table_perm_of_lookup
      · rw [tableKeys_map_log]
        exact hnd
      · exact hchN.1
      · intro k
        rw [lookupTable_map_log, hchN.2 k]
        cases hl : lookupLog k st.log with
        | none =>
            have hknot : k ∉ logKeys st.log := (lookupLog_eq_none_iff k st.log).mp hl
            have hbr : blockRuns aggs blocks k = [] := by
              by_contra hc
              exact hknot ((hmem' k).mpr hc)
            rw [canonLook, if_pos ((blockRuns_nil_iff aggs blocks k).mp hbr)]
            rfl
        | some r =>
            have hkin : k ∈ logKeys st.log := by
              by_contra hc
              rw [(lookupLog_eq_none_iff k st.log).mpr hc] at hl
              exact Option.noConfusion hl
            have hr : r = blockRuns aggs blocks k := by
              have := hrun' k
              rw [hl] at this
              simpa using this
            have hbrne : blockRuns aggs blocks k ≠ [] := (hmem' k).mp hkin
            have hrowsne : rowsFor k (streamPairs blocks) ≠ [] := by
              intro hc
              exact hbrne ((blockRuns_nil_iff aggs blocks k).mpr hc)
            rw [canonLook, if_neg hrowsne]
            show some (mergeRun aggs r) = _
            rw [hr, mergeRun_blockRuns hmc]

/-- Claim C3: for every nonempty list of token infos, `tokenizeTokenInfos` returns a
result (no error), and the result is `some` — taking the tokenized path — exactly when
the number of distinct compound keys is at most the partition ceiling `cap`; with
`cap + 1` or more distinct compound keys it returns `none`, routing the block to the
row-wise fallback path rather than raising an error. In particular exactly `cap`
distinct compound keys still succeed. -/
theorem claim_C3 {cap : Nat} {tis : List (TokenInfo V)} (hne : tis ≠ []) :
    ∃ r, tokenizeTokenInfos cap tis = .ok r ∧
      (r.isSome ↔ (distinctCompounds tis (numRowsOf tis)).length ≤ cap) := by
  refine ⟨_, tokenizeTokenInfos_eq cap tis hne, ?_⟩
  by_cases hc : (distinctCompounds tis (numRowsOf tis)).length ≤ cap
  · rw [if_pos hc]
    simp [hc]
  · rw [if_neg hc]
    simp [hc]

/-- Claim C4: processing a block never creates a group-table entry for a key none of
whose rows are selected: (a) a partition whose intersected selection bitmap is entirely
false neither creates nor touches an entry, (b) on the row-wise path rows with a false
selection bit are skipped, (c) a block whose selection mask is entirely false leaves
the table unchanged, and (d) on either path every key added by a block comes from one
of its selected rows. -/
theorem claim_C4 :
    (∀ (aggs : List (AggSpec V A)) (datas : List (List V)) (bits : List Bool)
      (key : Key V) (ht : GroupTable V A), allFalseB bits = true →
        execBlockLevel aggs datas bits key ht = ht) ∧
    (∀ (aggs : List (AggSpec V A)) (blk : InputBlock V) (ht : GroupTable V A)
      (i : Nat), blk.mask.getD i false = false → rowWiseBody aggs blk ht i = ht) ∧
    (∀ (cap : Nat) (aggs : List (AggSpec V A)) (blk : InputBlock V)
      (ht : GroupTable V A), wfBlock blk = true → allFalseB blk.mask = true →
        processBlock cap aggs blk ht = .ok ht) ∧
    (∀ (cap : Nat) (aggs : List (AggSpec V A)) (blk : InputBlock V)
      (ht ht' : GroupTable V A), wfBlock blk = true →
        processBlock cap aggs blk ht = .ok ht' →
        ∀ k ∈ tableKeys ht', k ∈ tableKeys ht ∨
          k ∈ (selPairs blk).map (fun p => p.1)) := by
  refine ⟨?_, ?_, ?_, ?_⟩
  · intro aggs datas bits key ht h
    rw [execBlockLevel, if_pos h]
  · intro aggs blk ht i h
    rw [rowWiseBody, if_neg]
    rw [List.getD_eq_getElem?_getD] at h
    simp [h]
  · intro cap aggs blk ht hwf h
    exact processBlock_allFalse aggs hwf ht h
  · intro cap aggs blk ht ht' hwf h
    exact processBlock_keys_bound hwf h

/-- Claim C5: whatever the budget predicate says, if at least one spill occurred while
consuming the input (the `spilled` flag is set after the loop), then the end-of-open
step performs one final spill, so the in-memory table is empty when draining begins and
every key that was still in memory now resides in the external log. -/
theorem claim_C5 {cap : Nat} {aggs : List (AggSpec V A)} {force : Bool}
    {budget : GroupTable V A → Bool} {blocks : List (InputBlock V)}
    {st0 : OpenState V A}
    (h : openLoop cap aggs force budget blocks ⟨[], [], false⟩ = .ok st0)
    (hsp : st0.spilled = true) :
    openStage cap aggs force budget blocks = .ok (finalizeOpen st0) ∧
    (finalizeOpen st0).ht = [] ∧ (finalizeOpen st0).spilled = true ∧
    ∀ e ∈ st0.ht, e.1 ∈ logKeys (finalizeOpen st0).log := by
  refine ⟨openStage_eq_of_loop h, ?_, ?_, ?_⟩
  all_goals by_cases hht : st0.ht.isEmpty
  · rw [finalizeOpen, if_neg (by simp [hht])]
    simpa [List.isEmpty_iff] using hht
  · rw [finalizeOpen, if_pos ⟨by rw [hsp], by simp [hht]⟩]
  · rw [finalizeOpen, if_neg (by simp [hht])]
    exact hsp
  · rw [finalizeOpen, if_pos ⟨by rw [hsp], by simp [hht]⟩]
  · intro e he
    have : st0.ht = [] := by simpa [List.isEmpty_iff] using hht
    rw [this] at he
    simp at he
  · intro e he
    rw [finalizeOpen, if_pos ⟨by rw [hsp], by simp [hht]⟩]
    show e.1 ∈ logKeys (spillAll st0.ht st0.log)
    rw [logKeys_spillAll_mem]
    right
    exact List.mem_map.mpr ⟨e, he, rfl⟩

/-- Claim C6: each call of `getNextSpilledHelper` consumes the maximal run of leading
records whose key equals the first record's key — taking the stashed record first when
present — merges their partial state rows with the merging expressions starting from
all-empty slots, stashes the first record with a differing key, and returns the merged
group; and it returns "no group" exactly when there is no stashed record and the
cursor is exhausted on its first read. -/
theorem claim_C6 (aggs : List (AggSpec V A)) :
    (∀ (k : Key V) (p : List A) (recs : List (Key V × List A)),
      getNextSpilledHelper aggs ⟨some (k, p), recs⟩ =
        some ((k, ((recs.takeWhile (fun r => r.1 = k)).map (fun r => r.2)).foldl
            (mergeStep aggs) (mergeStep aggs (nothingRow aggs) p)),
          ⟨(recs.dropWhile (fun r => r.1 = k)).head?,
            (recs.dropWhile (fun r => r.1 = k)).tail⟩)) ∧
    (∀ (r : Key V × List A) (recs : List (Key V × List A)),
      getNextSpilledHelper aggs ⟨none, r :: recs⟩ =
        getNextSpilledHelper aggs ⟨some r, recs⟩) ∧
    (∀ rs : ReaderState V A,
      getNextSpilledHelper aggs rs = none ↔ rs.stash = none ∧ rs.recs = []) := by
  refine ⟨?_, ?_, ?_⟩
  · intro k p recs
    simp only [getNextSpilledHelper, readSameKey_eq]
  · intro r recs
    rfl
  · exact helper_none_iff aggs

/-- Claim C7: every output batch emitted during draining — on the spilled path
(`getNextSpilled`) and on the in-memory path alike — holds at most
`kBlockOutSize` group rows and is paired with a freshly constructed all-true selection
bitmap whose length equals the number of rows emitted in that batch. -/
theorem claim_C7 (aggs : List (AggSpec V A)) :
    (∀ (fuel : Nat) (rs : ReaderState V A),
      ∀ b ∈ drainSpilledBlocksFuel aggs kBlockOutSize fuel rs,
        b.rows.length ≤ kBlockOutSize ∧
          b.bitmap = List.replicate b.rows.length true) ∧
    (∀ ht : GroupTable V A, ∀ b ∈ drainInMemory kBlockOutSize ht,
      b.rows.length ≤ kBlockOutSize ∧
        b.bitmap = List.replicate b.rows.length true) :=
  ⟨drainSpilledBlocks_shape aggs kBlockOutSize,
   fun ht => drainInMemory_shape kBlockOutSize ht⟩

/-- Claim C8 (amended): a batch in which some group-by column's length differs from the
selection bitmap's length always triggers the fatal assertion `tassert 8608600` before
any accumulation happens. (The original claim — that any length mismatch, including
one confined to accumulator-input columns, is fatal — fails: see the counterexample,
where a batch whose only mismatched column is an accumulator input proceeds without
any assertion because its rows are all deselected.) -/
theorem claim_C8 {cap : Nat} {aggs : List (AggSpec V A)} {blk : InputBlock V}
    (ht : GroupTable V A) (h : ∃ col ∈ blk.gbs, col.length ≠ blk.mask.length) :
    processBlock cap aggs blk ht = .error (.tassert 8608600) := by
  obtain ⟨col, hc, hlen⟩ := h
  have hall : ((blk.gbs.map tokenizeColumn).all
      (fun ti => decide (ti.idxs.length = blk.mask.length))) = false := by
    rw [List.all_eq_false]
    refine ⟨tokenizeColumn col, List.mem_map.mpr ⟨col, hc, rfl⟩, ?_⟩
    simp [tokenizeColumn_idxs_length, hlen]
  rw [processBlock, tryTokenizeGbs]
  rw [if_neg (by rw [hall]; simp)]
  rfl

/-- Claim C9: two input streams that are identical except in the group-by and
accumulator-input values of rows whose selection bit is false produce the same set of
`(group key, final accumulator state)` pairs — a deselected row never contributes to
any group on either execution path, assuming the block-level accumulator expressions
honor the bound selection bitmap. -/
theorem claim_C9 {cap : Nat} {aggs : List (AggSpec V A)}
    {blocks1 blocks2 : List (InputBlock V)} (heq : BlockRowEquiv aggs)
    (hwf1 : ∀ blk ∈ blocks1, wfBlock blk = true)
    (hwf2 : ∀ blk ∈ blocks2, wfBlock blk = true)
    (hagree : List.Forall₂ MaskedAgree blocks1 blocks2) :
    ∃ ht1 ht2, runStream cap aggs blocks1 [] = .ok ht1 ∧
      runStream cap aggs blocks2 [] = .ok ht2 ∧ ht1.Perm ht2 := by
  obtain ⟨ht1, hrun1, hch1⟩ := runStream_char heq hwf1 (tableChar_nil aggs)
  obtain ⟨ht2, hrun2, hch2⟩ := runStream_char heq hwf2 (tableChar_nil aggs)
  rw [List.nil_append] at hch1 hch2
  rw [streamPairs_eq_of_maskedAgree hagree] at hch1
  exact ⟨ht1, ht2, hrun1, hrun2, perm_of_tableChar hch1 hch2⟩

/-- Claim C10: whenever tokenization of a well-formed block's group-by columns returns
a result, the result is well-formed: one partition ordinal per input row, every
ordinal a valid index into the key list, the materialized keys pairwise distinct and
equal to the first-seen deduplication of the per-row group-by keys (ordinals assigned
in first-seen row order), never more keys than the ceiling, and each row's ordinal
materializing back to exactly that row's group-by values — so the tokenized executor's
per-partition indexing is always in bounds. -/
theorem claim_C10 {cap n : Nat} {gbs : List (List V)} {tk : TokenizedKeys V}
    (hne : gbs ≠ []) (hlen : ∀ col ∈ gbs, col.length = n)
    (h : tryTokenizeGbs cap n gbs = .ok (some tk)) :
    tk.idxs.length = n ∧
    (∀ i < n, tk.idxs.getD i 0 < tk.keys.length) ∧
    tk.keys.Nodup ∧ tk.keys.length ≤ cap ∧
    tk.keys = fsDedup ((List.range n).map (fun i => rowAt gbs i)) ∧
    (∀ i < n, tk.keys.getD (tk.idxs.getD i 0) [] = rowAt gbs i) := by
  obtain ⟨⟨h1, h2, h3, h4⟩, h5, h6⟩ := tryTokenizeGbs_wf_some hne hlen h
  exact ⟨h1, h2, h4, h5, h6, h3⟩

/-! ## Concrete instances used as witnesses -/

theorem count_shift (rows : List (List Nat)) (s : Nat) :
    rows.foldl (fun x r => countAgg.rowAgg r x) s = s + rows.length := by
  induction rows generalizing s with
  | nil => rfl
  | cons r t ih =>
      rw [List.foldl_cons, ih]
      show s + 1 + t.length = s + (t.length + 1)
      omega

theorem countAgg_equiv : BlockRowEquiv [countAgg] := by
  intro g hg mask cols s
  rw [List.mem_singleton] at hg
  subst hg
  rfl

theorem countAgg_merge : MergeIsCombine [countAgg] := by
  intro g hg a rows
  rw [List.mem_singleton] at hg
  subst hg
  rw [count_shift, count_shift]
  show a + (0 + rows.length) = a + rows.length
  omega

theorem maskedAgree_9 : MaskedAgree blk9a blk9b := by
  refine ⟨rfl, fun i hi => ?_⟩
  match i with
  | 0 => exact ⟨rfl, rfl⟩
  | 1 => exact absurd hi (by decide)
  | n + 2 =>
      rw [blk9a] at hi
      simp [List.getD_cons_succ, List.getD_nil] at hi

/-- Witness for C1 at a concrete two-row block with the count accumulator. -/
theorem claim_C1_witness :
    ∃ ht, runStream 4 [countAgg] [blkW] [] = .ok ht ∧
      ht.Perm (runStreamRowWise [countAgg] [blkW]) :=
  claim_C1 countAgg_equiv (by decide) (by decide)

/-- Witness for C2 at a concrete two-row block with the count accumulator. -/
theorem claim_C2_witness :
    ∃ stF stN,
      openStage 4 [countAgg] true (fun _ => false) [blkW] = .ok stF ∧
      openStage 4 [countAgg] false (fun _ => false) [blkW] = .ok stN ∧
      (finalPairs [countAgg] stF).Perm (finalPairs [countAgg] stN) :=
  claim_C2 countAgg_equiv countAgg_merge (by decide)

/-- Witness for C3 at a concrete single three-row token info with two distinct keys. -/
theorem claim_C3_witness :
    ∃ r, tokenizeTokenInfos 4 [tokenizeColumn ([1, 1, 2] : List Nat)] = .ok r ∧
      (r.isSome ↔ (distinctCompounds [tokenizeColumn ([1, 1, 2] : List Nat)]
        (numRowsOf [tokenizeColumn ([1, 1, 2] : List Nat)])).length ≤ 4) :=
  claim_C3 (by simp)

/-- Witness for C4 at concrete deselected-row inputs. -/
theorem claim_C4_witness :
    execBlockLevel [countAgg] [[5]] [false] [1] ([] : GroupTable Nat Nat) = [] ∧
    rowWiseBody [countAgg] ⟨[false], [[1]], [[5]]⟩ ([] : GroupTable Nat Nat) 0 = [] ∧
    processBlock 4 [countAgg] ⟨[false], [[1]], [[5]]⟩ ([] : GroupTable Nat Nat) =
      .ok [] ∧
    ([1] ∈ tableKeys ([] : GroupTable Nat Nat) ∨
      [1] ∈ (selPairs (⟨[true], [[1]], [[5]]⟩ : InputBlock Nat)).map
        (fun p => p.1)) := by
  refine ⟨?_, ?_, ?_, ?_⟩
  · exact (claim_C4 (V := Nat) (A := Nat)).1 [countAgg] [[5]] [false] [1] []
      (by decide)
  · exact (claim_C4 (V := Nat) (A := Nat)).2.1 [countAgg] ⟨[false], [[1]], [[5]]⟩ [] 0
      (by decide)
  · exact (claim_C4 (V := Nat) (A := Nat)).2.2.1 4 [countAgg]
      ⟨[false], [[1]], [[5]]⟩ [] (by decide) (by decide)
  · exact (claim_C4 (V := Nat) (A := Nat)).2.2.2 4 [countAgg]
      ⟨[true], [[1]], [[5]]⟩ [] [([1], [1])] (by decide) rfl [1] (by decide)

/-- Witness for C5 at a concrete forced-spill run of the open loop. -/
theorem claim_C5_witness :
    openStage 4 [countAgg] true (fun _ => false) [blkW] =
      .ok (finalizeOpen ⟨[], [([1], [[2]])], true⟩) ∧
    (finalizeOpen (⟨[], [([1], [[2]])], true⟩ : OpenState Nat Nat)).ht = [] ∧
    (finalizeOpen (⟨[], [([1], [[2]])], true⟩ : OpenState Nat Nat)).spilled = true ∧
    ∀ e ∈ (⟨[], [([1], [[2]])], true⟩ : OpenState Nat Nat).ht,
      e.1 ∈ logKeys (finalizeOpen (⟨[], [([1], [[2]])], true⟩ :
        OpenState Nat Nat)).log :=
  claim_C5 rfl rfl

/-- Witness for C8 (amended) at a concrete block whose group-by column has two values
under a one-bit selection bitmap. -/
theorem claim_C8_witness :
    processBlock 4 [countAgg] (⟨[true], [[1, 2]], [[5]]⟩ : InputBlock Nat)
      ([] : GroupTable Nat Nat) = .error (.tassert 8608600) :=
  claim_C8 [] ⟨[1, 2], by decide, by decide⟩

/-- Counterexample to the original C8: a block whose only mismatched column is an
accumulator input (the group-by column's length matches the bitmap) is processed
without any assertion failure — its single row is deselected, so the length mismatch
is never observed and the block yields `ok`. -/
theorem claim_C8_counterexample :
    (∃ col ∈ (⟨[false], [[0]], [[]]⟩ : InputBlock Nat).datas,
      col.length ≠ (⟨[false], [[0]], [[]]⟩ : InputBlock Nat).mask.length) ∧
    processBlock 4 [countAgg] (⟨[false], [[0]], [[]]⟩ : InputBlock Nat)
      ([] : GroupTable Nat Nat) = .ok [] :=
  ⟨⟨[], by decide, by decide⟩, rfl⟩

/-- Witness for C9 at two concrete blocks differing only in their deselected row. -/
theorem claim_C9_witness :
    ∃ ht1 ht2, runStream 4 [countAgg] [blk9a] [] = .ok ht1 ∧
      runStream 4 [countAgg] [blk9b] [] = .ok ht2 ∧ ht1.Perm ht2 :=
  claim_C9 countAgg_equiv (by decide) (by decide)
    (List.forall₂_cons.mpr ⟨maskedAgree_9, List.Forall₂.nil⟩)

/-- Witness for C10 at a concrete two-row group-by column with one distinct key. -/
theorem claim_C10_witness :
    (⟨[[1]], [0, 0]⟩ : TokenizedKeys Nat).idxs.length = 2 ∧
    (∀ i < 2, (⟨[[1]], [0, 0]⟩ : TokenizedKeys Nat).idxs.getD i 0 <
      (⟨[[1]], [0, 0]⟩ : TokenizedKeys Nat).keys.length) ∧
    (⟨[[1]], [0, 0]⟩ : TokenizedKeys Nat).keys.Nodup ∧
    (⟨[[1]], [0, 0]⟩ : TokenizedKeys Nat).keys.length ≤ 4 ∧
    (⟨[[1]], [0, 0]⟩ : TokenizedKeys Nat).keys =
      fsDedup ((List.range 2).map (fun i => rowAt ([[1, 1]] : List (List Nat)) i)) ∧
    (∀ i < 2, (⟨[[1]], [0, 0]⟩ : TokenizedKeys Nat).keys.getD
      ((⟨[[1]], [0, 0]⟩ : TokenizedKeys Nat).idxs.getD i 0) [] =
        rowAt ([[1, 1]] : List (List Nat)) i) :=
  claim_C10 (by decide) (by decide) rfl

end BlockHashAgg
